import Mathlib

/-!
Access-pattern benchmarks (`src/prefetching/prefetching.cpp`)

A shallow embedding of the four benchmark bodies `rowMajor`, `columnMajor`,
`random` and `randomPrefetch`.

* `std::vector<int>` is a `List Int`; every subscript `v[x]` is checked, and an
  access outside the vector makes the embedded code return `none`.
* The timed loop of `randomPrefetch` is given twice. `prefetchStep`,
  `sweepPrefetch` and `randomPrefetch` check every subscript, the one inside the
  argument of the hint included: their `none` says that a subscript outside its
  vector was evaluated. `hintStmt`, `hintedLoop` and `randomPrefetchExec` give
  the loop as it executes: the argument of the hint reads a word and forms an
  address, the hint stores nothing, and the loop goes on.
* `int` arithmetic is arithmetic on `Int` reduced to 32 bits by `wrap32`.
* The number of sweeps decided by the timing harness (`s.KeepRunning()`) is the
  parameter `iters`.
-/

namespace Prefetching

/-! ## 32-bit `int` arithmetic -/

/-- Reduction of an integer to the two-complement range of a 32-bit `int`,
`[-2147483648, 2147483647]`. -/
def wrap32 (x : Int) : Int :=
  (x + 2147483648) % 4294967296 - 2147483648

/-- The two ways hardware evaluates `a << n` on a 32-bit register when the
count `n` is not below the width: `wrap` keeps the low 32 bits of the
mathematical product `a * 2^n` (every bit is shifted out once `n` reaches 32),
`mask` first reduces the count to its low five bits. For counts in `[0, 32)`
both agree. -/
inductive ShiftModel
  | wrap
  | mask
  deriving DecidableEq

/-- The expression `a << n` on `int`. -/
def shl32 (m : ShiftModel) (a n : Int) : Int :=
  match m with
  | ShiftModel.wrap => if 0 ≤ n ∧ n < 32 then wrap32 (a * 2 ^ n.toNat) else 0
  | ShiftModel.mask => wrap32 (a * 2 ^ (n % 32).toNat)

/-! ## Vectors -/

/-- The declaration `std::vector<int> v(N)` (and `resize(N)` on an empty
vector): `N` zero elements. A negative `int` converts to a size no allocation
can satisfy. -/
def vectorNew (N : Int) : Option (List Int) :=
  if 0 ≤ N then some (List.replicate N.toNat 0) else none

/-- The call `std::iota(begin(v), end(v), x)`: successive slots receive
`x, x + 1, ...`. -/
def iota : List Int → Int → List Int
  | [], _ => []
  | _ :: t, x => x :: iota t (wrap32 (x + 1))

/-- Reading `v[x]` for an `int` subscript `x`. -/
def vecRead (v : List Int) (x : Int) : Option Int :=
  if 0 ≤ x then v[x.toNat]? else none

/-- Forming the element reference `v[x]` without reading it, as in `&v[x]`. -/
def vecRef (v : List Int) (x : Int) : Option Unit :=
  if 0 ≤ x ∧ x.toNat < v.length then some () else none

/-- The assignment `v[x] = a`. -/
def vecWrite (v : List Int) (x a : Int) : Option (List Int) :=
  if 0 ≤ x ∧ x.toNat < v.length then some (v.set x.toNat a) else none

/-! ## Loops -/

/-- The loop `for (int i = 0; i < n; i++) body`: iterations `0, 1, ..., n - 1`
in this order, threading the state. -/
def forLoop {σ : Type} (body : σ → Int → Option σ) : Nat → σ → Option σ
  | 0, s => some s
  | n + 1, s => (forLoop body n s).bind (fun t => body t (n : Int))

/-- The loop `while (s.KeepRunning()) body`, the harness granting `iters`
iterations. -/
def keepRunning {σ : Type} (body : σ → Option σ) : Nat → σ → Option σ
  | 0, s => some s
  | n + 1, s => (keepRunning body n s).bind body

/-- The statement `v_out[v_in[i]] += i;` (lines 26, 54, 82 and 111). -/
def sweepStep (v_in v_out : List Int) (i : Int) : Option (List Int) :=
  (vecRead v_in i).bind fun x =>
    (vecRead v_out x).bind fun y => vecWrite v_out x (wrap32 (y + i))

/-- The timed loop of `rowMajor`, `columnMajor` and `random`
(lines 25-27, 53-55, 81-83): `for (int i = 0; i < N; i++) v_out[v_in[i]] += i;`. -/
def sweep (N : Int) (v_in v_out : List Int) : Option (List Int) :=
  forLoop (sweepStep v_in) N.toNat v_out

/-- The body of the timed loop of `randomPrefetch` (lines 110-111):
`__builtin_prefetch(&v_out[v_in[i + 1]]); v_out[v_in[i]] += i;`, with every
subscript checked, the one in the argument of the hint included. The result is
`none` exactly when the body evaluates a subscript outside its vector;
otherwise it is what the statement `v_out[v_in[i]] += i;` leaves. What the body
computes when it runs unchecked is `hintStmt` followed by `addStmt`. -/
def prefetchStep (v_in v_out : List Int) (i : Int) : Option (List Int) :=
  (vecRead v_in (wrap32 (i + 1))).bind fun x =>
    (vecRef v_out x).bind fun _ => sweepStep v_in v_out i

/-- The timed loop of `randomPrefetch` (lines 109-112), with every subscript
checked: `none` says that some iteration evaluated a subscript outside its
vector. -/
def sweepPrefetch (N : Int) (v_in v_out : List Int) : Option (List Int) :=
  forLoop (prefetchStep v_in) N.toNat v_out

/-- The subscripts at which the first `n` iterations of the timed loop of
`randomPrefetch` read `v_in`, in program order: `i + 1` (line 110), then `i`
(line 111). -/
def prefetchReadPositions : Nat → List Int
  | 0 => []
  | n + 1 => prefetchReadPositions n ++ [wrap32 ((n : Int) + 1), (n : Int)]

/-- The assignment `v_in[i * stride + j] = j * stride + i;` (line 43). -/
def columnMajorAssign (stride i : Int) (v_in : List Int) (j : Int) : Option (List Int) :=
  vecWrite v_in (wrap32 (wrap32 (i * stride) + j)) (wrap32 (wrap32 (j * stride) + i))

/-- The construction loop of `columnMajor` (lines 41-45):
`for i < stride, for j < stride: v_in[i * stride + j] = j * stride + i;`. -/
def columnMajorLoop (stride : Int) (v_in : List Int) : Option (List Int) :=
  forLoop (fun v i => forLoop (columnMajorAssign stride i) stride.toNat v) stride.toNat v_in

/-! ## Shuffling -/

/-- Exchange of the elements at two positions (`std::iter_swap`). -/
def swapAt (v : List Int) (i j : Nat) : List Int :=
  match v[i]?, v[j]? with
  | some a, some b => (v.set i b).set j a
  | _, _ => v

/-- The first `n` exchanges of the shuffle: exchange number `i` (for
`i = 1, 2, ...`) swaps position `i` with a position drawn from `[0, i]`. -/
def shuffleLoop (draw : Nat → Nat) (v : List Int) : Nat → List Int
  | 0 => v
  | n + 1 => swapAt (shuffleLoop draw v n) (n + 1) (draw (n + 1) % (n + 2))

/-- Modelled from the spec: `std::shuffle(begin(v), end(v), urng)` is C++
library code that is not part of the repository sources. It is the
Fisher-Yates exchange sequence of the library implementations, the outcome of
the generator (`std::random_device`, `std::mt19937`) being the function `draw`
that gives the number drawn at each exchange. -/
def shuffle (draw : Nat → Nat) (v : List Int) : List Int :=
  shuffleLoop draw v (v.length - 1)

/-! ## The four benchmarks -/

/-- The size `int N = 1 << s.range(0);` for the size exponent `k`. -/
def sizeN (m : ShiftModel) (k : Nat) : Int :=
  shl32 m 1 (k : Int)

/-- The index buffer of `rowMajor` (lines 13-17). -/
def rowMajorIndex (m : ShiftModel) (k : Nat) : Option (List Int) :=
  (vectorNew (sizeN m k)).map fun v => iota v 0

/-- The stride of `columnMajor` (line 39): `int stride = 1 << (N / 2);`. -/
def columnMajorStride (m : ShiftModel) (k : Nat) : Int :=
  shl32 m 1 (Int.tdiv (sizeN m k) 2)

/-- The index buffer of `columnMajor` (lines 36-45). -/
def columnMajorIndex (m : ShiftModel) (k : Nat) : Option (List Int) :=
  (vectorNew (sizeN m k)).bind (columnMajorLoop (columnMajorStride m k))

/-- The index buffer of `random` (lines 64-73). -/
def randomIndex (m : ShiftModel) (draw : Nat → Nat) (k : Nat) : Option (List Int) :=
  (vectorNew (sizeN m k)).map fun v => shuffle draw (iota v 0)

/-- The index buffer of `randomPrefetch` (lines 92-101). -/
def randomPrefetchIndex (m : ShiftModel) (draw : Nat → Nat) (k : Nat) : Option (List Int) :=
  (vectorNew (sizeN m k)).map fun v => shuffle draw (iota v 0)

/-- The common tail of the benchmarks: allocate `v_out`, run the timed loop
`iters` times, and give back both buffers. -/
def runTimed (loop : Int → List Int → List Int → Option (List Int)) (N : Int)
    (iters : Nat) (v_in : List Int) : Option (List Int × List Int) :=
  (vectorNew N).bind fun v_out =>
    (keepRunning (loop N v_in) iters v_out).map fun out => (v_in, out)

/-- The benchmark `rowMajor` (lines 11-29); the result is `(v_in, v_out)`. -/
def rowMajor (m : ShiftModel) (k : Nat) (iters : Nat) : Option (List Int × List Int) :=
  (rowMajorIndex m k).bind (runTimed sweep (sizeN m k) iters)

/-- The benchmark `columnMajor` (lines 34-57). -/
def columnMajor (m : ShiftModel) (k : Nat) (iters : Nat) : Option (List Int × List Int) :=
  (columnMajorIndex m k).bind (runTimed sweep (sizeN m k) iters)

/-- The benchmark `random` (lines 62-85). -/
def random (m : ShiftModel) (draw : Nat → Nat) (k : Nat) (iters : Nat) :
    Option (List Int × List Int) :=
  (randomIndex m draw k).bind (runTimed sweep (sizeN m k) iters)

/-- The benchmark `randomPrefetch` (lines 90-114), with every subscript
checked: `none` says that a subscript outside its vector was evaluated. The
benchmark as it executes is `randomPrefetchExec`. -/
def randomPrefetch (m : ShiftModel) (draw : Nat → Nat) (k : Nat) (iters : Nat) :
    Option (List Int × List Int) :=
  (randomPrefetchIndex m draw k).bind (runTimed sweepPrefetch (sizeN m k) iters)

/-! ## The timed loops on the state of the machine -/

/-- The state a timed loop works on: the two vectors, and the log of the
slots of `v_out` whose address was handed to `__builtin_prefetch`, oldest
first. -/
structure LoopState where
  v_in : List Int
  v_out : List Int
  hints : List Int

/-- The statement `v_out[v_in[i]] += i;` (lines 26, 54, 82 and 111) on the
state of the machine: two reads, and one store, into `v_out`. -/
def addStmt (s : LoopState) (i : Int) : Option LoopState :=
  (vecRead s.v_in i).bind fun x =>
    (vecRead s.v_out x).bind fun y =>
      (vecWrite s.v_out x (wrap32 (y + i))).map fun out => ⟨s.v_in, out, s.hints⟩

/-- The word an unchecked read of `v[x]` delivers: the element when `x` is a
position of `v`, and otherwise whatever the memory holds there, `past x`. -/
def rawRead (past : Int → Int) (v : List Int) (x : Int) : Int :=
  (vecRead v x).getD (past x)

/-- The statement `__builtin_prefetch(&v_out[v_in[i + 1]]);` (line 110) as it
executes: its argument reads the word `v_in[i + 1]` and forms the address of
that slot of `v_out` without accessing it; the hint stores nothing. -/
def hintStmt (past : Int → Int) (s : LoopState) (i : Int) : LoopState :=
  ⟨s.v_in, s.v_out, s.hints ++ [rawRead past s.v_in (wrap32 (i + 1))]⟩

/-- The timed loop of `rowMajor`, `columnMajor` and `random`
(lines 25-27, 53-55, 81-83) on the state of the machine. -/
def plainLoop (N : Int) (s : LoopState) : Option LoopState :=
  forLoop addStmt N.toNat s

/-- The timed loop of `randomPrefetch` (lines 109-112) on the state of the
machine, as it executes: the hint, then the addition. -/
def hintedLoop (past : Int → Int) (N : Int) (s : LoopState) : Option LoopState :=
  forLoop (fun t i => addStmt (hintStmt past t i) i) N.toNat s

/-- The benchmark `randomPrefetch` (lines 90-114) as it executes, for the
content `past` of the memory around `v_in`. -/
def randomPrefetchExec (past : Int → Int) (m : ShiftModel) (draw : Nat → Nat) (k : Nat)
    (iters : Nat) : Option LoopState :=
  (randomPrefetchIndex m draw k).bind fun v_in =>
    (vectorNew (sizeN m k)).bind fun v_out =>
      keepRunning (hintedLoop past (sizeN m k)) iters ⟨v_in, v_out, []⟩

/-- The buffer `v` holds every value of `[0, N)` exactly once and nothing
else: it is a permutation of `[0, N)`. -/
def IsPermOfRange (v : List Int) (N : Nat) : Prop :=
  v.length = N ∧ ∀ x : Int, 0 ≤ x → x < N → v.count x = 1

/-- The index sum collected by output slot `x` during the first `n` iterations
of a sweep: the sum of the `i < n` with `v_in[i] = x`. -/
def slotTotal (v_in : List Int) (x : Int) : Nat → Int
  | 0 => 0
  | n + 1 => slotTotal v_in x n + (if v_in[n]? = some x then (n : Int) else 0)

/-- The positions written by the first `n` assignments of row `i` of the
construction loop of `columnMajor` (line 43), in program order. -/
def columnMajorRowPositions (stride i : Int) : Nat → List Int
  | 0 => []
  | n + 1 => columnMajorRowPositions stride i n ++ [wrap32 (wrap32 (i * stride) + (n : Int))]

/-- The positions of `v_in` written by the first `n` rows of the construction
loop of `columnMajor` (lines 41-45), in program order. -/
def columnMajorWritePositions (stride : Int) : Nat → List Int
  | 0 => []
  | n + 1 =>
    columnMajorWritePositions stride n ++ columnMajorRowPositions stride (n : Int) stride.toNat

/-! ## Arithmetic lemmas -/

theorem wrap32_of_range {x : Int} (h1 : -2147483648 ≤ x) (h2 : x < 2147483648) :
    wrap32 x = x := by
  unfold wrap32; omega

theorem wrap32_lt (x : Int) : wrap32 x < 2147483648 := by
  unfold wrap32; omega

theorem wrap32_ge (x : Int) : -2147483648 ≤ wrap32 x := by
  unfold wrap32; omega

theorem wrap32_add_left (a b : Int) : wrap32 (wrap32 a + b) = wrap32 (a + b) := by
  unfold wrap32; omega

theorem sizeN_lt (m : ShiftModel) (k : Nat) : sizeN m k < 2147483648 := by
  unfold sizeN shl32
  cases m
  · simp only
    split
    · exact wrap32_lt _
    · decide
  · exact wrap32_lt _

theorem sizeN_of_le (m : ShiftModel) {k : Nat} (hk : k ≤ 30) : sizeN m k = 2 ^ k := by
  have hp : (2 : Int) ^ k < 2147483648 := by
    have h1 : (2 : Int) ^ k ≤ 2 ^ 30 := pow_le_pow_right₀ (by norm_num) hk
    have h2 : ((2 : Int) ^ 30) = 1073741824 := by norm_num
    omega
  have hp0 : (0 : Int) ≤ 2 ^ k := by positivity
  unfold sizeN shl32
  cases m
  · have hc : (0 : Int) ≤ (k : Int) ∧ (k : Int) < 32 := by omega
    simp only [hc, and_self, if_true, Int.toNat_ofNat, one_mul]
    exact wrap32_of_range (by omega) hp
  · have hm : ((k : Int) % 32).toNat = k := by omega
    simp only [hm, one_mul]
    exact wrap32_of_range (by omega) hp

/-- The vector allocated for a size that is a power of two. -/
theorem vectorNew_pow {N : Int} {k : Nat} (hN : N = 2 ^ k) :
    vectorNew N = some (List.replicate (2 ^ k) 0) := by
  have h0 : (0 : Int) ≤ N := by rw [hN]; positivity
  have ht : N.toNat = 2 ^ k := by
    have : N = ((2 ^ k : Nat) : Int) := by rw [hN]; push_cast; rfl
    rw [this]; exact Int.toNat_ofNat _
  simp [vectorNew, h0, ht]

/-! ## Vector lemmas -/

theorem vecRead_natCast (v : List Int) (i : Nat) : vecRead v (i : Int) = v[i]? := by
  simp [vecRead]

theorem vecRead_neg (v : List Int) {x : Int} (h : x < 0) : vecRead v x = none := by
  simp [vecRead, h]

theorem vecWrite_natCast (v : List Int) {i : Nat} (a : Int) (h : i < v.length) :
    vecWrite v (i : Int) a = some (v.set i a) := by
  simp [vecWrite, h]

theorem vecWrite_neg (v : List Int) {x : Int} (a : Int) (h : x < 0) : vecWrite v x a = none := by
  simp [vecWrite, h]

theorem vecWrite_of_length_le (v : List Int) {i : Nat} (a : Int) (h : v.length ≤ i) :
    vecWrite v (i : Int) a = none := by
  simp [vecWrite, h]

theorem vecRef_natCast (v : List Int) {i : Nat} (h : i < v.length) :
    vecRef v (i : Int) = some () := by
  simp [vecRef, h]

theorem length_iota (v : List Int) (x : Int) : (iota v x).length = v.length := by
  induction v generalizing x with
  | nil => rfl
  | cons a t ih => simp [iota, ih]

theorem getElem?_iota (v : List Int) (x : Int) (i : Nat) (hi : i < v.length)
    (hx : -2147483648 ≤ x) (hb : x + v.length ≤ 2147483648) :
    (iota v x)[i]? = some (x + i) := by
  induction v generalizing x i with
  | nil => simp at hi
  | cons a t ih =>
    simp only [List.length_cons, Nat.cast_add, Nat.cast_one] at hb hi
    cases i with
    | zero => simp [iota]
    | succ j =>
      have hw : wrap32 (x + 1) = x + 1 := wrap32_of_range (by omega) (by omega)
      simp only [iota, List.getElem?_cons_succ, hw]
      rw [ih (x + 1) j (by omega) (by omega) (by omega)]
      push_cast; congr 1; ring

/-! ## Loop lemmas -/

theorem forLoop_succ {σ : Type} (body : σ → Int → Option σ) (n : Nat) (s : σ) :
    forLoop body (n + 1) s = (forLoop body n s).bind (fun t => body t (n : Int)) := rfl

/-- A loop in which some iteration fails in every state fails. -/
theorem forLoop_eq_none {σ : Type} (body : σ → Int → Option σ) (i n : Nat) (s : σ)
    (hi : i < n) (hb : ∀ t, body t (i : Int) = none) : forLoop body n s = none := by
  induction n with
  | zero => omega
  | succ n ih =>
    rw [forLoop_succ]
    rcases Nat.lt_succ_iff_lt_or_eq.mp hi with h | h
    · rw [ih h]; rfl
    · subst h
      cases forLoop body i s with
      | none => rfl
      | some t => exact hb t

theorem keepRunning_succ_eq_none {σ : Type} (body : σ → Option σ) (n : Nat) (s : σ)
    (hb : ∀ t, body t = none) : keepRunning body (n + 1) s = none := by
  show (keepRunning body n s).bind body = none
  cases keepRunning body n s with
  | none => rfl
  | some t => exact hb t

/-! ## The sweep -/

theorem slotTotal_succ_hit (v_in : List Int) (x : Int) (n : Nat) (h : v_in[n]? = some x) :
    slotTotal v_in x (n + 1) = slotTotal v_in x n + n := by
  simp [slotTotal, h]

theorem slotTotal_succ_miss (v_in : List Int) (x : Int) (n : Nat) (h : v_in[n]? ≠ some x) :
    slotTotal v_in x (n + 1) = slotTotal v_in x n := by
  simp [slotTotal, h]

/-- One step of the sweep at an index whose entry is a valid subscript. -/
theorem sweepStep_eq (v_in out : List Int) (n q : Nat) (y : Int)
    (hx : v_in[n]? = some (q : Int)) (hy : out[q]? = some y) :
    sweepStep v_in out (n : Int) = some (out.set q (wrap32 (y + n))) := by
  have hq : q < out.length := (List.getElem?_eq_some.mp hy).1
  simp [sweepStep, vecRead_natCast, hx, hy, vecWrite_natCast _ _ hq]

/-- The state after the first `n` iterations of a sweep whose index entries
are valid subscripts: the loop returns, lengths are kept, and slot `p` holds its
initial value plus the indices sent to it, reduced to 32 bits. -/
theorem forLoop_sweepStep (v_in v_out : List Int) (n : Nat) (hn : n ≤ v_in.length)
    (hin : ∀ (i : Nat) (x : Int), i < n → v_in[i]? = some x → 0 ≤ x ∧ x < v_out.length)
    (hr : ∀ (p : Nat) (a : Int), v_out[p]? = some a → wrap32 a = a) :
    ∃ out, forLoop (sweepStep v_in) n v_out = some out ∧ out.length = v_out.length ∧
      ∀ (p : Nat) (a : Int), v_out[p]? = some a →
        out[p]? = some (wrap32 (a + slotTotal v_in (p : Int) n)) := by
  induction n with
  | zero =>
    exact ⟨v_out, rfl, rfl, fun p a h => by simp [slotTotal, hr p a h, h]⟩
  | succ n ih =>
    obtain ⟨out, ho, hl, hp⟩ := ih (by omega) (fun i x hi => hin i x (by omega))
    have hx : v_in[n]? = some v_in[n] := List.getElem?_eq_getElem (by omega)
    obtain ⟨hx0, hxl⟩ := hin n _ (by omega) hx
    generalize v_in[n] = x at hx hx0 hxl
    obtain ⟨q, hqx⟩ := Int.eq_ofNat_of_zero_le hx0
    rw [hqx] at hx hxl
    have hq : q < v_out.length := by exact_mod_cast hxl
    have ha : v_out[q]? = some v_out[q] := List.getElem?_eq_getElem hq
    have hy := hp q _ ha
    refine ⟨_, by rw [forLoop_succ, ho]; exact sweepStep_eq v_in out n q _ hx hy,
      by simp [hl], ?_⟩
    intro p b hb
    by_cases hpq : p = q
    · subst hpq
      rw [List.getElem?_set_self (by omega)]
      rw [ha] at hb
      cases hb
      rw [wrap32_add_left, slotTotal_succ_hit _ _ _ hx, add_assoc]
    · rw [List.getElem?_set_ne (Ne.symm hpq), hp p b hb, slotTotal_succ_miss]
      intro h
      rw [hx] at h
      exact hpq (by exact_mod_cast (Option.some.inj h).symm)

/-! ## `rowMajor` -/

theorem toNat_pow_two (k : Nat) : ((2 : Int) ^ k).toNat = 2 ^ k := by
  have : (2 : Int) ^ k = ((2 ^ k : Nat) : Int) := by push_cast; rfl
  rw [this]; exact Int.toNat_ofNat _

theorem pow_two_lt_of_sizeN {m : ShiftModel} {k : Nat} (hN : sizeN m k = 2 ^ k) :
    ((2 ^ k : Nat) : Int) < 2147483648 := by
  have := sizeN_lt m k
  rw [hN] at this
  push_cast; exact this

theorem rowMajorIndex_eq {m : ShiftModel} {k : Nat} (hN : sizeN m k = 2 ^ k) :
    rowMajorIndex m k = some (iota (List.replicate (2 ^ k) 0) 0) := by
  simp [rowMajorIndex, vectorNew_pow hN]

theorem getElem?_iota_zero {n i : Nat} (hn : (n : Int) < 2147483648) (hi : i < n) :
    (iota (List.replicate n 0) 0)[i]? = some (i : Int) := by
  have := getElem?_iota (List.replicate n 0) 0 i (by simpa using hi) (by omega)
    (by simp only [List.length_replicate]; omega)
  simpa using this

/-- On a buffer that holds `i` at every position `i`, slot `p` has collected
exactly the index `p` once the sweep has passed it. -/
theorem slotTotal_identity (v : List Int) (hv : ∀ i : Nat, i < v.length → v[i]? = some (i : Int))
    (p n : Nat) (hn : n ≤ v.length) :
    slotTotal v (p : Int) n = if p < n then (p : Int) else 0 := by
  induction n with
  | zero => simp [slotTotal]
  | succ n ih =>
    have hvn := hv n (by omega)
    by_cases hpn : p = n
    · subst hpn
      rw [slotTotal_succ_hit _ _ _ hvn, ih (by omega)]
      simp
    · rw [slotTotal_succ_miss, ih (by omega)]
      · by_cases h : p < n
        · simp [h, Nat.lt_succ_of_lt h]
        · have h' : ¬ p < n + 1 := by omega
          simp [h, h']
      · rw [hvn]
        intro h
        exact hpn (by exact_mod_cast (Option.some.inj h).symm)

theorem runTimed_one (loop : Int → List Int → List Int → Option (List Int)) (N : Int)
    (v_in : List Int) :
    runTimed loop N 1 v_in =
      (vectorNew N).bind fun v_out => (loop N v_in v_out).map fun out => (v_in, out) := by
  unfold runTimed
  cases vectorNew N with
  | none => rfl
  | some z => rfl

/-- One sweep over the identity index buffer, from zeros, stores `i` in slot `i`. -/
theorem sweep_identity {n : Nat} (hn : (n : Int) < 2147483648) (v : List Int)
    (hl : v.length = n) (hv : ∀ i : Nat, i < n → v[i]? = some (i : Int)) :
    ∃ out, sweep (n : Int) v (List.replicate n 0) = some out ∧ out.length = n ∧
      ∀ i : Nat, i < n → out[i]? = some (i : Int) := by
  obtain ⟨out, ho, hlen, hp⟩ := forLoop_sweepStep v (List.replicate n 0) n (by omega)
    (fun i x hi hx => by
      rw [hv i hi] at hx
      cases hx
      simp only [List.length_replicate]
      omega)
    (fun p a h => by
      rw [List.getElem?_replicate] at h
      split at h
      · cases h; rfl
      · cases h)
  refine ⟨out, by simpa [sweep] using ho, by simpa using hlen, ?_⟩
  intro i hi
  rw [hp i 0 (by simp [hi]), slotTotal_identity v (by rw [hl]; exact hv) i n (by omega)]
  simp only [hi, if_true, zero_add]
  rw [wrap32_of_range (by omega) (by omega)]

/-- C3. For every size `N = 2^k` the index buffer built by `rowMajor` is the
identity permutation: it has length `N` and holds `i` at every position `i` of
`[0, N)`. -/
theorem rowMajorIndex_identity (m : ShiftModel) (k : Nat) (hN : sizeN m k = 2 ^ k) :
    ∃ v_in, rowMajorIndex m k = some v_in ∧ v_in.length = 2 ^ k ∧
      ∀ i : Nat, i < 2 ^ k → v_in[i]? = some (i : Int) :=
  ⟨_, rowMajorIndex_eq hN, by simp [length_iota],
    fun _ hi => getElem?_iota_zero (pow_two_lt_of_sizeN hN) hi⟩

/-- C3 at `k = 4`: the index buffer of `rowMajor` for `N = 16`. -/
theorem rowMajorIndex_identity_witness :
    sizeN ShiftModel.mask 4 = 2 ^ 4 ∧
      ∃ v_in, rowMajorIndex ShiftModel.mask 4 = some v_in ∧ v_in.length = 2 ^ 4 ∧
        ∀ i : Nat, i < 2 ^ 4 → v_in[i]? = some (i : Int) :=
  ⟨sizeN_of_le _ (by decide), rowMajorIndex_identity ShiftModel.mask 4 (sizeN_of_le _ (by decide))⟩

/-- C10. For every size `N = 2^k`, `rowMajor` run for one sweep from an output
buffer of `N` zeros returns, and leaves `i` in output slot `i` for every `i` of
`[0, N)`. -/
theorem rowMajor_one_sweep (m : ShiftModel) (k : Nat) (hN : sizeN m k = 2 ^ k) :
    ∃ v_in v_out, rowMajor m k 1 = some (v_in, v_out) ∧ v_out.length = 2 ^ k ∧
      ∀ i : Nat, i < 2 ^ k → v_out[i]? = some (i : Int) := by
  have hlt := pow_two_lt_of_sizeN hN
  have hcast : sizeN m k = ((2 ^ k : Nat) : Int) := by rw [hN]; push_cast; rfl
  obtain ⟨out, ho, hlen, hp⟩ := sweep_identity hlt (iota (List.replicate (2 ^ k) 0) 0)
    (by simp [length_iota]) (fun i hi => getElem?_iota_zero hlt hi)
  refine ⟨iota (List.replicate (2 ^ k) 0) 0, out, ?_, hlen, hp⟩
  rw [rowMajor, rowMajorIndex_eq hN, Option.some_bind, runTimed_one, vectorNew_pow hN,
    Option.some_bind, hcast, ho]
  rfl

/-- C10 at `k = 4`: one sweep of `rowMajor` for `N = 16`. -/
theorem rowMajor_one_sweep_witness :
    sizeN ShiftModel.wrap 4 = 2 ^ 4 ∧
      ∃ v_in v_out, rowMajor ShiftModel.wrap 4 1 = some (v_in, v_out) ∧ v_out.length = 2 ^ 4 ∧
        ∀ i : Nat, i < 2 ^ 4 → v_out[i]? = some (i : Int) :=
  ⟨sizeN_of_le _ (by decide), rowMajor_one_sweep ShiftModel.wrap 4 (sizeN_of_le _ (by decide))⟩

/-! ## The construction loop of `columnMajor` -/

theorem index_lt_square {s i j : Nat} (hi : i < s) (hj : j < s) : i * s + j < s * s := by
  have := Nat.mul_le_mul_right s (Nat.succ_le_of_lt hi)
  rw [Nat.succ_mul] at this
  omega

/-- Inside a `stride * stride` buffer that an `int` can index, the assignment
of line 43 stores `j * stride + i` at position `i * stride + j`. -/
theorem columnMajorAssign_eq {s i j : Nat} (w : List Int) (hi : i < s) (hj : j < s)
    (hs : s * s ≤ 2147483648) (hw : w.length = s * s) :
    columnMajorAssign (s : Int) (i : Int) w (j : Int) =
      some (w.set (i * s + j) ((j * s + i : Nat) : Int)) := by
  have hA := index_lt_square hi hj
  have hB := index_lt_square hj hi
  have e1 : wrap32 ((i : Int) * (s : Int)) = ((i * s : Nat) : Int) := by
    rw [← Nat.cast_mul]
    exact wrap32_of_range (by omega) (by omega)
  have e2 : wrap32 ((j : Int) * (s : Int)) = ((j * s : Nat) : Int) := by
    rw [← Nat.cast_mul]
    exact wrap32_of_range (by omega) (by omega)
  have e3 : wrap32 (((i * s : Nat) : Int) + (j : Int)) = ((i * s + j : Nat) : Int) := by
    rw [wrap32_of_range] <;> omega
  have e4 : wrap32 (((j * s : Nat) : Int) + (i : Int)) = ((j * s + i : Nat) : Int) := by
    rw [wrap32_of_range] <;> omega
  rw [columnMajorAssign, e1, e2, e3, e4]
  exact vecWrite_natCast w _ (by omega)

/-- Row `i` of the construction: after the first `j0` assignments the row
holds its values up to column `j0`, everything else is untouched. -/
theorem forLoop_columnMajorAssign {s i : Nat} (hi : i < s) (hs : s * s ≤ 2147483648)
    (j0 : Nat) (hj0 : j0 ≤ s) (w : List Int) (hw : w.length = s * s) :
    ∃ w', forLoop (columnMajorAssign (s : Int) (i : Int)) j0 w = some w' ∧
      w'.length = s * s ∧
      (∀ q : Nat, q < i * s ∨ i * s + j0 ≤ q → w'[q]? = w[q]?) ∧
      ∀ j : Nat, j < j0 → w'[i * s + j]? = some ((j * s + i : Nat) : Int) := by
  induction j0 with
  | zero => exact ⟨w, rfl, hw, fun _ _ => rfl, fun j hj => by omega⟩
  | succ j0 ih =>
    obtain ⟨w1, h1, hl1, hout, hrow⟩ := ih (by omega)
    have hA := index_lt_square hi (show j0 < s by omega)
    refine ⟨w1.set (i * s + j0) ((j0 * s + i : Nat) : Int), ?_, by simp [hl1], ?_, ?_⟩
    · rw [forLoop_succ, h1, Option.some_bind]
      exact columnMajorAssign_eq w1 hi (by omega) hs hl1
    · intro q hq
      rw [List.getElem?_set_ne (by omega)]
      exact hout q (by omega)
    · intro j hj
      by_cases hjj : j = j0
      · subst hjj
        rw [List.getElem?_set_self (by omega)]
      · rw [List.getElem?_set_ne (by omega)]
        exact hrow j (by omega)

/-- The construction after its first `i0` rows. -/
theorem forLoop_columnMajorRows {s : Nat} (hs : s * s ≤ 2147483648) (buf : List Int)
    (hbuf : buf.length = s * s) (i0 : Nat) (hi0 : i0 ≤ s) :
    ∃ v, forLoop (fun v i => forLoop (columnMajorAssign (s : Int) i) s v) i0 buf = some v ∧
      v.length = s * s ∧
      ∀ i j : Nat, i < i0 → j < s → v[i * s + j]? = some ((j * s + i : Nat) : Int) := by
  induction i0 with
  | zero => exact ⟨buf, rfl, hbuf, fun i j hi => by omega⟩
  | succ i0 ih =>
    obtain ⟨v1, h1, hl1, hrows⟩ := ih (by omega)
    obtain ⟨w, hw, hlw, hout, hrow⟩ :=
      forLoop_columnMajorAssign (show i0 < s by omega) hs s (le_refl _) v1 hl1
    refine ⟨w, ?_, hlw, ?_⟩
    · rw [forLoop_succ, h1, Option.some_bind]
      exact hw
    · intro i j hi hj
      by_cases hii : i = i0
      · subst hii
        exact hrow j hj
      · have hlt : i < i0 := by omega
        have := Nat.mul_le_mul_right s (Nat.succ_le_of_lt hlt)
        rw [Nat.succ_mul] at this
        rw [hout (i * s + j) (Or.inl (by omega))]
        exact hrows i j hlt hj

/-- The construction loop on a `stride * stride` buffer that an `int` can
index: it returns, keeps the length and sends position `i * stride + j` to
`j * stride + i`. -/
theorem columnMajorLoop_spec {s : Nat} (hs : s * s ≤ 2147483648) (buf : List Int)
    (hbuf : buf.length = s * s) :
    ∃ v, columnMajorLoop (s : Int) buf = some v ∧ v.length = s * s ∧
      ∀ i j : Nat, i < s → j < s → v[i * s + j]? = some ((j * s + i : Nat) : Int) := by
  obtain ⟨v, hv, hl, h⟩ := forLoop_columnMajorRows hs buf hbuf s (le_refl _)
  exact ⟨v, by simpa [columnMajorLoop] using hv, hl, h⟩

/-- An assignment of the construction whose position wraps to a negative
`int` makes the whole construction fail, whatever the buffer. -/
theorem columnMajorLoop_eq_none (stride : Int) (i j : Nat) (hi : i < stride.toNat)
    (hj : j < stride.toNat) (h : wrap32 (wrap32 ((i : Int) * stride) + (j : Int)) < 0)
    (v : List Int) : columnMajorLoop stride v = none :=
  forLoop_eq_none _ i _ v hi fun t =>
    forLoop_eq_none _ j _ t hj fun w => vecWrite_neg w _ h

/-- C7, as stated, fails at `stride = 46341` on a buffer of `46341 * 46341`
elements: the assignment for `i = j = 46340` computes the position
`46340 * 46341 + 46340 = 2147488280`, beyond the largest `int`; it wraps to
`-2147479016`, outside the buffer, and the construction does not go through. -/
theorem columnMajorLoop_stride_46341 :
    (List.replicate (46341 * 46341) (0 : Int)).length = 46341 * 46341 ∧
      wrap32 (wrap32 (46340 * 46341) + 46340) = -2147479016 ∧
      columnMajorLoop 46341 (List.replicate (46341 * 46341) 0) = none :=
  ⟨List.length_replicate _ _, by decide,
    columnMajorLoop_eq_none 46341 46340 46340 (by decide) (by decide) (by decide) _⟩

/-- C7 (amended). For every stride `s` with `s * s ≤ 2^31` (every position of
the buffer is an `int`) and every index buffer of length `s * s`, the
construction loop of `columnMajor` returns and leaves `j * s + i` at position
`i * s + j`, for all `i`, `j` in `[0, s)`. -/
theorem columnMajorLoop_transposes (s : Nat) (hs : s * s ≤ 2147483648) (buf : List Int)
    (hbuf : buf.length = s * s) :
    ∃ v, columnMajorLoop (s : Int) buf = some v ∧ v.length = s * s ∧
      ∀ i j : Nat, i < s → j < s → v[i * s + j]? = some ((j * s + i : Nat) : Int) :=
  columnMajorLoop_spec hs buf hbuf

/-- C7 (amended) at `stride = 2` on the buffer `[5, 5, 5, 5]`. -/
theorem columnMajorLoop_transposes_witness :
    ∃ v, columnMajorLoop ((2 : Nat) : Int) [5, 5, 5, 5] = some v ∧ v.length = 2 * 2 ∧
      ∀ i j : Nat, i < 2 → j < 2 → v[i * 2 + j]? = some ((j * 2 + i : Nat) : Int) :=
  columnMajorLoop_transposes 2 (by decide) [5, 5, 5, 5] rfl

/-- C8, as stated, fails at `stride = 65536` on a buffer of `65536 * 65536`
elements: the position `32768 * 65536` of the assignment for `i = 32768`,
`j = 0` wraps to a negative `int`, so the construction produces no buffer. -/
theorem columnMajorLoop_stride_65536 :
    ¬ ∃ v, columnMajorLoop 65536 (List.replicate (65536 * 65536) 0) = some v ∧
      ∀ x : Nat, x < 65536 * 65536 → (v[x]?).bind (vecRead v) = some (x : Int) := by
  rw [columnMajorLoop_eq_none 65536 32768 0 (by decide) (by decide) (by decide)]
  rintro ⟨v, hv, -⟩
  cases hv

/-- C8 (amended). For every stride `s` with `s * s ≤ 2^31` and every index
buffer of length `s * s`, the buffer `v_in` left by the construction loop of
`columnMajor` is its own inverse: `v_in[v_in[x]] = x` for every `x` in
`[0, s * s)`. -/
theorem columnMajorLoop_self_inverse (s : Nat) (hs : s * s ≤ 2147483648) (buf : List Int)
    (hbuf : buf.length = s * s) :
    ∃ v, columnMajorLoop (s : Int) buf = some v ∧
      ∀ x : Nat, x < s * s → (v[x]?).bind (vecRead v) = some (x : Int) := by
  obtain ⟨v, hv, -, h⟩ := columnMajorLoop_spec hs buf hbuf
  refine ⟨v, hv, fun x hx => ?_⟩
  have hs0 : 0 < s := by
    rcases Nat.eq_zero_or_pos s with h0 | h0
    · subst h0; omega
    · exact h0
  have hi : x / s < s := Nat.div_lt_of_lt_mul hx
  have hj : x % s < s := Nat.mod_lt _ hs0
  have hx' : x / s * s + x % s = x := by
    rw [Nat.mul_comm]; exact Nat.div_add_mod x s
  have h1 := h (x / s) (x % s) hi hj
  have h2 := h (x % s) (x / s) hj hi
  rw [hx'] at h1 h2
  rw [h1, Option.some_bind, vecRead_natCast, h2]

/-- C8 (amended) at `stride = 2` on a buffer of four zeros. -/
theorem columnMajorLoop_self_inverse_witness :
    ∃ v, columnMajorLoop ((2 : Nat) : Int) [0, 0, 0, 0] = some v ∧
      ∀ x : Nat, x < 2 * 2 → (v[x]?).bind (vecRead v) = some (x : Int) :=
  columnMajorLoop_self_inverse 2 (by decide) [0, 0, 0, 0] rfl

/-! ## `columnMajor` on the sizes of the benchmark -/

/-- For `N = 2^k` with `6 ≤ k ≤ 30` the shift count `N / 2` of line 39 is a
multiple of 32 that is not below the width of `int`: the stride is `0` when the
shifted bits are dropped and `1` when the count is masked. -/
theorem columnMajorStride_of_large (m : ShiftModel) {k : Nat} (h6 : 6 ≤ k) (h30 : k ≤ 30) :
    columnMajorStride m k = (match m with | ShiftModel.wrap => 0 | ShiftModel.mask => 1) := by
  have hN := sizeN_of_le m h30
  obtain ⟨j, rfl⟩ : ∃ j, k = j + 6 := ⟨k - 6, by omega⟩
  have hpos : (1 : Int) ≤ 2 ^ j := one_le_pow₀ (by norm_num)
  have h64 : (2 : Int) ^ (j + 6) = 64 * 2 ^ j := by rw [pow_add]; norm_num; ring
  rw [h64] at hN
  generalize (2 : Int) ^ j = t at hN hpos
  have hdiv : Int.tdiv (sizeN m (j + 6)) 2 = 32 * t := by
    rw [hN, Int.tdiv_eq_ediv (by omega) (by norm_num)]; omega
  unfold columnMajorStride
  rw [hdiv]
  cases m
  · show (if 0 ≤ 32 * t ∧ 32 * t < 32 then _ else 0) = 0
    rw [if_neg (by omega)]
  · show wrap32 (1 * 2 ^ ((32 * t) % 32).toNat) = 1
    rw [Int.mul_emod_right]
    rfl

theorem columnMajorLoop_zero (v : List Int) : columnMajorLoop 0 v = some v := rfl

theorem columnMajorLoop_one (v : List Int) : columnMajorLoop 1 v = vecWrite v 0 0 := rfl

/-- For `N = 2^k` with `6 ≤ k ≤ 30` the index buffer of `columnMajor` is made
of `N` zeros. -/
theorem columnMajorIndex_of_large (m : ShiftModel) {k : Nat} (h6 : 6 ≤ k) (h30 : k ≤ 30) :
    columnMajorIndex m k = some (List.replicate (2 ^ k) 0) := by
  have hN := sizeN_of_le m h30
  have hpos : 0 < 2 ^ k := by positivity
  unfold columnMajorIndex
  rw [vectorNew_pow hN, Option.some_bind, columnMajorStride_of_large m h6 h30]
  cases m
  · exact columnMajorLoop_zero _
  · show columnMajorLoop 1 _ = _
    rw [columnMajorLoop_one]
    have := @vecWrite_natCast (List.replicate (2 ^ k) (0 : Int)) 0 0 (by rw [List.length_replicate]; exact hpos)
    rw [List.set_replicate_self] at this
    exact this

set_option maxRecDepth 100000 in
/-- For `k = 4` (`N = 16`) line 39 gives the stride `1 << 8 = 256`, and the
construction leaves the 16-element buffer at its assignment number 17. -/
theorem columnMajorIndex_four (m : ShiftModel) :
    sizeN m 4 = 16 ∧ columnMajorStride m 4 = 256 ∧ columnMajorIndex m 4 = none := by
  cases m <;> decide

/-- For `k = 2` (`N = 4`) line 39 gives the stride `1 << 2 = 4`, and the
construction leaves the 4-element buffer at its fifth assignment. -/
theorem columnMajorIndex_two (m : ShiftModel) :
    sizeN m 2 = 4 ∧ columnMajorStride m 2 = 4 ∧ columnMajorIndex m 2 = none := by
  cases m <;> decide

/-- C1: evaluation at the registered sizes. For `k` in `{20, 22, 24}` the
index buffer built by `columnMajor` has length `N = 2^k` and holds `N` zeros:
the value `1` does not appear in it and it is not a permutation of `[0, N)`. -/
theorem columnMajorIndex_not_permutation (m : ShiftModel) (k : Nat)
    (hk : k = 20 ∨ k = 22 ∨ k = 24) :
    ∃ v, columnMajorIndex m k = some v ∧ v.length = 2 ^ k ∧ v.count 0 = 2 ^ k ∧
      v.count 1 = 0 ∧ ¬ IsPermOfRange v (2 ^ k) := by
  have h6 : 6 ≤ k := by omega
  have h30 : k ≤ 30 := by omega
  have hc : (List.replicate (2 ^ k) (0 : Int)).count 1 = 0 := by
    rw [List.count_replicate]; rfl
  have h2 : (1 : Int) < ((2 ^ k : Nat) : Int) := by
    have : 2 ^ 1 < 2 ^ k := Nat.pow_lt_pow_right (by norm_num) (by omega)
    omega
  refine ⟨_, columnMajorIndex_of_large m h6 h30, List.length_replicate _ _,
    List.count_replicate_self _ _, hc, fun hperm => ?_⟩
  have := hperm.2 1 (by norm_num) h2
  rw [hc] at this
  cases this

/-- C1 at `k = 20`, the first registered size, with the masked shift. -/
theorem columnMajorIndex_not_permutation_witness :
    ((20 : Nat) = 20 ∨ (20 : Nat) = 22 ∨ (20 : Nat) = 24) ∧
      ∃ v, columnMajorIndex ShiftModel.mask 20 = some v ∧ v.length = 2 ^ 20 ∧
        v.count 0 = 2 ^ 20 ∧ v.count 1 = 0 ∧ ¬ IsPermOfRange v (2 ^ 20) :=
  ⟨Or.inl rfl, columnMajorIndex_not_permutation ShiftModel.mask 20 (Or.inl rfl)⟩

/-- C9: evaluation at `k = 4`. For `N = 16` the stride of `columnMajor` is
`1 << 8 = 256`, not `4`; the construction writes outside the 16-element index
buffer, so no sweep takes place, however many iterations are granted. The
construction loop run with the stride `4` does give the outcome of the claim. -/
theorem columnMajor_sixteen (m : ShiftModel) (iters : Nat) :
    sizeN m 4 = 16 ∧ columnMajorStride m 4 = 256 ∧ columnMajorIndex m 4 = none ∧
      columnMajor m 4 iters = none ∧
      columnMajorLoop 4 (List.replicate 16 0) =
        some [0, 4, 8, 12, 1, 5, 9, 13, 2, 6, 10, 14, 3, 7, 11, 15] ∧
      sweep 16 [0, 4, 8, 12, 1, 5, 9, 13, 2, 6, 10, 14, 3, 7, 11, 15] (List.replicate 16 0) =
        some [0, 4, 8, 12, 1, 5, 9, 13, 2, 6, 10, 14, 3, 7, 11, 15] := by
  obtain ⟨h1, h2, h3⟩ := columnMajorIndex_four m
  refine ⟨h1, h2, h3, ?_, by decide, by decide⟩
  rw [columnMajor, h3]
  rfl

/-! ## Shuffled index buffers -/

theorem length_swapAt (v : List Int) (i j : Nat) : (swapAt v i j).length = v.length := by
  unfold swapAt
  split <;> simp

theorem count_swapAt (v : List Int) (i j : Nat) (x : Int) :
    (swapAt v i j).count x = v.count x := by
  unfold swapAt
  split
  · rename_i a b hi hj
    obtain ⟨hil, rfl⟩ := List.getElem?_eq_some.mp hi
    obtain ⟨hjl, rfl⟩ := List.getElem?_eq_some.mp hj
    rw [List.count_set _ _ _ _ (by simpa using hjl), List.count_set _ _ _ _ hil]
    have hjs : j < (v.set i v[j]).length := by simpa using hjl
    have e : (v.set i v[j])[j] = v[j] := by
      rw [List.getElem_set]; split <;> rfl
    rw [e]
    have hmem : v[i] = x → 1 ≤ v.count x := fun h =>
      List.count_pos_iff.mpr (h ▸ List.getElem_mem hil)
    by_cases h1 : v[i] = x <;> by_cases h2 : v[j] = x <;> simp [h1, h2] <;> omega
  · rfl

theorem length_shuffleLoop (draw : Nat → Nat) (v : List Int) (n : Nat) :
    (shuffleLoop draw v n).length = v.length := by
  induction n with
  | zero => rfl
  | succ n ih => simp [shuffleLoop, length_swapAt, ih]

theorem count_shuffleLoop (draw : Nat → Nat) (v : List Int) (n : Nat) (x : Int) :
    (shuffleLoop draw v n).count x = v.count x := by
  induction n with
  | zero => rfl
  | succ n ih => simp [shuffleLoop, count_swapAt, ih]

theorem length_shuffle (draw : Nat → Nat) (v : List Int) : (shuffle draw v).length = v.length :=
  length_shuffleLoop _ _ _

theorem count_shuffle (draw : Nat → Nat) (v : List Int) (x : Int) :
    (shuffle draw v).count x = v.count x :=
  count_shuffleLoop _ _ _ _

/-- The buffer filled by `std::iota` from `0` lists `0, 1, ..., n - 1`. -/
theorem iota_zero_eq_map_range {n : Nat} (hn : (n : Int) < 2147483648) :
    iota (List.replicate n 0) 0 = (List.range n).map (fun i : Nat => (i : Int)) := by
  apply List.ext_getElem?
  intro i
  by_cases hi : i < n
  · rw [getElem?_iota_zero hn hi]
    simp [List.getElem?_range hi]
  · rw [List.getElem?_eq_none (by simp [length_iota]; omega),
      List.getElem?_eq_none (by simp; omega)]

theorem isPermOfRange_iota {n : Nat} (hn : (n : Int) < 2147483648) :
    IsPermOfRange (iota (List.replicate n 0) 0) n := by
  refine ⟨by simp [length_iota], fun x h0 hx => ?_⟩
  rw [iota_zero_eq_map_range hn]
  apply List.count_eq_one_of_mem
  · exact (List.nodup_range n).map Nat.cast_injective
  · exact List.mem_map.mpr ⟨x.toNat, List.mem_range.mpr (by omega), by omega⟩

theorem isPermOfRange_shuffle (draw : Nat → Nat) {v : List Int} {n : Nat}
    (h : IsPermOfRange v n) : IsPermOfRange (shuffle draw v) n :=
  ⟨by rw [length_shuffle]; exact h.1, fun x h0 hx => by rw [count_shuffle]; exact h.2 x h0 hx⟩

theorem randomIndex_eq {m : ShiftModel} (draw : Nat → Nat) {k : Nat} (hN : sizeN m k = 2 ^ k) :
    randomIndex m draw k = some (shuffle draw (iota (List.replicate (2 ^ k) 0) 0)) := by
  simp [randomIndex, vectorNew_pow hN]

theorem randomPrefetchIndex_eq {m : ShiftModel} (draw : Nat → Nat) {k : Nat}
    (hN : sizeN m k = 2 ^ k) :
    randomPrefetchIndex m draw k = some (shuffle draw (iota (List.replicate (2 ^ k) 0) 0)) := by
  simp [randomPrefetchIndex, vectorNew_pow hN]

/-- C4. For every size `N = 2^k` and every outcome `draw` of the random
source, the index buffers built by `random` and by `randomPrefetch` (iota, then
shuffle) are one and the same permutation of `[0, N)`: the buffer has length `N`
and every value of `[0, N)` appears in it exactly once. -/
theorem shuffled_index_is_permutation (m : ShiftModel) (draw : Nat → Nat) (k : Nat)
    (hN : sizeN m k = 2 ^ k) :
    ∃ v, randomIndex m draw k = some v ∧ randomPrefetchIndex m draw k = some v ∧
      v.length = 2 ^ k ∧ ∀ x : Int, 0 ≤ x → x < 2 ^ k → v.count x = 1 := by
  have hperm := isPermOfRange_shuffle draw (isPermOfRange_iota (pow_two_lt_of_sizeN hN))
  refine ⟨_, randomIndex_eq draw hN, randomPrefetchIndex_eq draw hN, hperm.1, fun x h0 hx => ?_⟩
  exact hperm.2 x h0 (by push_cast; exact hx)

/-- C4 at `k = 4` for the draws `i ↦ 7 * i + 3`. -/
theorem shuffled_index_is_permutation_witness :
    sizeN ShiftModel.mask 4 = 2 ^ 4 ∧
      ∃ v, randomIndex ShiftModel.mask (fun i => 7 * i + 3) 4 = some v ∧
        randomPrefetchIndex ShiftModel.mask (fun i => 7 * i + 3) 4 = some v ∧
        v.length = 2 ^ 4 ∧ ∀ x : Int, 0 ≤ x → x < 2 ^ 4 → v.count x = 1 :=
  ⟨sizeN_of_le _ (by decide),
    shuffled_index_is_permutation ShiftModel.mask (fun i => 7 * i + 3) 4
      (sizeN_of_le _ (by decide))⟩

/-! ## The timed loop of `randomPrefetch` -/

/-- The sweep over an index buffer of valid subscripts returns and keeps the
length of the output buffer. -/
theorem forLoop_sweepStep_some (v_in v_out : List Int) (n : Nat) (hn : n ≤ v_in.length)
    (hin : ∀ x ∈ v_in, 0 ≤ x ∧ x < v_out.length) :
    ∃ out, forLoop (sweepStep v_in) n v_out = some out ∧ out.length = v_out.length := by
  induction n with
  | zero => exact ⟨v_out, rfl, rfl⟩
  | succ n ih =>
    obtain ⟨out, ho, hl⟩ := ih (by omega)
    have hnl : n < v_in.length := by omega
    obtain ⟨hx0, hxl⟩ := hin v_in[n] (List.getElem_mem hnl)
    obtain ⟨q, hqx⟩ := Int.eq_ofNat_of_zero_le hx0
    have hx : v_in[n]? = some (q : Int) := by rw [List.getElem?_eq_getElem hnl, hqx]
    have hq : q < out.length := by rw [hqx] at hxl; omega
    exact ⟨_, by rw [forLoop_succ, ho]
                 exact sweepStep_eq v_in out n q _ hx (List.getElem?_eq_getElem hq),
      by simp [hl]⟩

/-- At a position whose successor is still inside `v_in`, the hinted step does
what the plain step does. -/
theorem prefetchStep_eq_sweepStep (v_in out : List Int) (n : Nat) (hn : n + 1 < v_in.length)
    (hl : v_in.length < 2147483648) (hin : ∀ x ∈ v_in, 0 ≤ x ∧ x < out.length) :
    prefetchStep v_in out (n : Int) = sweepStep v_in out (n : Int) := by
  obtain ⟨hx0, hxl⟩ := hin v_in[n + 1] (List.getElem_mem hn)
  obtain ⟨q, hqx⟩ := Int.eq_ofNat_of_zero_le hx0
  have hw : wrap32 ((n : Int) + 1) = ((n + 1 : Nat) : Int) := by
    rw [wrap32_of_range (by omega) (by omega)]; push_cast; rfl
  have hq : q < out.length := by rw [hqx] at hxl; omega
  rw [prefetchStep, hw, vecRead_natCast, List.getElem?_eq_getElem hn, Option.some_bind, hqx,
    vecRef_natCast out hq, Option.some_bind]

/-- On the last position of `v_in` the argument of the hint reads `v_in` one
past its end. -/
theorem prefetchStep_last (v_in out : List Int) (n : Nat) (hn : v_in.length = n + 1)
    (hl : v_in.length < 2147483648) : prefetchStep v_in out (n : Int) = none := by
  have hw : wrap32 ((n : Int) + 1) = ((n + 1 : Nat) : Int) := by
    rw [wrap32_of_range (by omega) (by omega)]; push_cast; rfl
  rw [prefetchStep, hw, vecRead_natCast, List.getElem?_eq_none (by omega)]
  rfl

theorem sweepPrefetch_eq_none (N : Nat) (v_in v_out : List Int) (hN : 1 ≤ N)
    (hl : v_in.length = N) (hb : N < 2147483648) :
    sweepPrefetch (N : Int) v_in v_out = none := by
  unfold sweepPrefetch
  rw [Int.toNat_ofNat]
  exact forLoop_eq_none _ (N - 1) N v_out (by omega)
    (fun t => prefetchStep_last v_in t (N - 1) (by omega) (by omega))

theorem mem_prefetchReadPositions (n : Nat) (hb : n + 1 < 2147483648) :
    ((n + 1 : Nat) : Int) ∈ prefetchReadPositions (n + 1) := by
  have hw : wrap32 ((n : Int) + 1) = ((n + 1 : Nat) : Int) := by
    rw [wrap32_of_range (by omega) (by omega)]; push_cast; rfl
  simp [prefetchReadPositions, hw]

theorem randomPrefetch_eq_none (m : ShiftModel) (draw : Nat → Nat) (k : Nat)
    (hN : sizeN m k = 2 ^ k) (iters : Nat) : randomPrefetch m draw k (iters + 1) = none := by
  have hlt := pow_two_lt_of_sizeN hN
  have hcast : sizeN m k = ((2 ^ k : Nat) : Int) := by rw [hN]; push_cast; rfl
  have hpos : 1 ≤ 2 ^ k := Nat.one_le_two_pow
  rw [randomPrefetch, randomPrefetchIndex_eq draw hN, Option.some_bind, runTimed,
    vectorNew_pow hN, Option.some_bind, hcast,
    keepRunning_succ_eq_none _ _ _ (fun t => sweepPrefetch_eq_none (2 ^ k) _ t hpos
      (by rw [length_shuffle, length_iota, List.length_replicate]) (by omega))]
  rfl

/-- C2: evaluation on every size `N = 2^k` of the benchmark. The timed loop
of `randomPrefetch` issues the hint on its last iteration as on every other
one: the position `N` is among the positions at which the loop reads `v_in`,
and `randomPrefetch` leaves the index buffer in its first sweep, for every
outcome `draw` of the shuffle. -/
theorem randomPrefetch_reads_past_end (m : ShiftModel) (draw : Nat → Nat) (k : Nat)
    (hN : sizeN m k = 2 ^ k) (iters : Nat) :
    ((2 ^ k : Nat) : Int) ∈ prefetchReadPositions (2 ^ k) ∧
      randomPrefetch m draw k (iters + 1) = none := by
  have hlt := pow_two_lt_of_sizeN hN
  have hpos : 1 ≤ 2 ^ k := Nat.one_le_two_pow
  obtain ⟨n, hn⟩ : ∃ n, 2 ^ k = n + 1 := ⟨2 ^ k - 1, by omega⟩
  refine ⟨?_, randomPrefetch_eq_none m draw k hN iters⟩
  rw [hn]
  exact mem_prefetchReadPositions n (by omega)

/-- C2 at the registered size `k = 20` and one sweep. -/
theorem randomPrefetch_reads_past_end_witness :
    sizeN ShiftModel.mask 20 = 2 ^ 20 ∧
      ((2 ^ 20 : Nat) : Int) ∈ prefetchReadPositions (2 ^ 20) ∧
      randomPrefetch ShiftModel.mask (fun _ => 0) 20 (0 + 1) = none :=
  ⟨sizeN_of_le _ (by decide),
    randomPrefetch_reads_past_end ShiftModel.mask (fun _ => 0) 20 (sizeN_of_le _ (by decide)) 0⟩

/-! ## The sum of the output buffer after one sweep -/

theorem slotTotal_eq_zero (v : List Int) (x : Int) (n : Nat)
    (h : ∀ i : Nat, i < n → v[i]? ≠ some x) : slotTotal v x n = 0 := by
  induction n with
  | zero => rfl
  | succ n ih =>
    rw [slotTotal_succ_miss _ _ _ (h n (by omega))]
    exact ih (fun i hi => h i (by omega))

/-- In a buffer without repetition, the slot `x = v[i0]` collects the index
`i0` and nothing else. -/
theorem slotTotal_of_nodup (v : List Int) (hv : v.Nodup) (x : Int) (i0 n : Nat) (hi : i0 < n)
    (hn : n ≤ v.length) (hx : v[i0]? = some x) : slotTotal v x n = i0 := by
  induction n with
  | zero => omega
  | succ n ih =>
    by_cases h : i0 = n
    · subst h
      rw [slotTotal_succ_hit _ _ _ hx, slotTotal_eq_zero, zero_add]
      intro i hi' hix
      have := List.getElem?_inj (by omega) hv (hix.trans hx.symm)
      omega
    · rw [slotTotal_succ_miss, ih (by omega) (by omega)]
      intro hnx
      have := List.getElem?_inj (by omega) hv (hnx.trans hx.symm)
      omega

theorem length_of_vecWrite {v r : List Int} {x a : Int} (h : vecWrite v x a = some r) :
    r.length = v.length := by
  unfold vecWrite at h
  split at h
  · cases h; simp
  · cases h

theorem vecWrite_isSome_iff (v : List Int) (x a : Int) :
    (vecWrite v x a).isSome ↔ 0 ≤ x ∧ x.toNat < v.length := by
  unfold vecWrite
  split <;> simp [*]

theorem length_forLoop_columnMajorAssign (stride i : Int) (n : Nat) (w w' : List Int)
    (h : forLoop (columnMajorAssign stride i) n w = some w') : w'.length = w.length := by
  induction n generalizing w' with
  | zero => cases h; rfl
  | succ n ih =>
    rw [forLoop_succ] at h
    cases h1 : forLoop (columnMajorAssign stride i) n w with
    | none => rw [h1] at h; cases h
    | some w1 =>
      rw [h1, Option.some_bind] at h
      rw [length_of_vecWrite h, ih w1 h1]

/-- Row `i` of the construction goes through exactly when each position it
writes lies inside the buffer. -/
theorem forLoop_columnMajorAssign_isSome_iff (stride i : Int) (n : Nat) (w : List Int) :
    (forLoop (columnMajorAssign stride i) n w).isSome ↔
      ∀ p ∈ columnMajorRowPositions stride i n, 0 ≤ p ∧ p.toNat < w.length := by
  induction n with
  | zero => simp [forLoop, columnMajorRowPositions]
  | succ n ih =>
    rw [forLoop_succ]
    simp only [columnMajorRowPositions, List.mem_append, List.mem_singleton]
    cases h1 : forLoop (columnMajorAssign stride i) n w with
    | none =>
      rw [h1] at ih
      simp only [Option.none_bind, Option.isSome_none, Bool.false_eq_true, false_iff]
      intro hall
      exact absurd (ih.mpr fun p hp => hall p (Or.inl hp)) (by simp)
    | some w1 =>
      rw [h1] at ih
      have hl := length_forLoop_columnMajorAssign stride i n w w1 h1
      rw [Option.some_bind]
      show (vecWrite w1 _ _).isSome ↔ _
      rw [vecWrite_isSome_iff, hl]
      constructor
      · intro hw p hp
        rcases hp with hp | hp
        · exact ih.mp (by simp) p hp
        · rw [hp]; exact hw
      · intro hall
        exact hall _ (Or.inr rfl)

theorem length_forLoop_columnMajorRows (stride : Int) (c n : Nat) (v v' : List Int)
    (h : forLoop (fun v i => forLoop (columnMajorAssign stride i) c v) n v = some v') :
    v'.length = v.length := by
  induction n generalizing v' with
  | zero => cases h; rfl
  | succ n ih =>
    rw [forLoop_succ] at h
    cases h1 : forLoop (fun v i => forLoop (columnMajorAssign stride i) c v) n v with
    | none => rw [h1] at h; cases h
    | some v1 =>
      rw [h1, Option.some_bind] at h
      rw [length_forLoop_columnMajorAssign stride _ c v1 v' h, ih v1 h1]

/-- The first `n` rows of the construction go through exactly when each
position they write lies inside the buffer. -/
theorem forLoop_columnMajorRows_isSome_iff (stride : Int) (n : Nat) (v : List Int) :
    (forLoop (fun v i => forLoop (columnMajorAssign stride i) stride.toNat v) n v).isSome ↔
      ∀ p ∈ columnMajorWritePositions stride n, 0 ≤ p ∧ p.toNat < v.length := by
  induction n with
  | zero => simp [forLoop, columnMajorWritePositions]
  | succ n ih =>
    rw [forLoop_succ]
    simp only [columnMajorWritePositions, List.mem_append]
    cases h1 : forLoop (fun v i => forLoop (columnMajorAssign stride i) stride.toNat v) n v with
    | none =>
      rw [h1] at ih
      simp only [Option.none_bind, Option.isSome_none, Bool.false_eq_true, false_iff]
      intro hall
      exact absurd (ih.mpr fun p hp => hall p (Or.inl hp)) (by simp)
    | some v1 =>
      rw [h1] at ih
      have hl := length_forLoop_columnMajorRows stride stride.toNat n v v1 h1
      rw [Option.some_bind]
      show (forLoop (columnMajorAssign stride (n : Int)) stride.toNat v1).isSome ↔ _
      rw [forLoop_columnMajorAssign_isSome_iff, hl]
      constructor
      · intro hw p hp
        rcases hp with hp | hp
        · exact ih.mp (by simp) p hp
        · exact hw p hp
      · intro hall p hp
        exact hall p (Or.inr hp)

/-- The construction loop of `columnMajor` goes through exactly when each
position it writes lies inside the index buffer. -/
theorem columnMajorLoop_isSome_iff (stride : Int) (v : List Int) :
    (columnMajorLoop stride v).isSome ↔
      ∀ p ∈ columnMajorWritePositions stride stride.toNat, 0 ≤ p ∧ p.toNat < v.length :=
  forLoop_columnMajorRows_isSome_iff stride stride.toNat v

theorem mem_columnMajorRowPositions (stride i : Int) (j n : Nat) (hj : j < n) :
    wrap32 (wrap32 (i * stride) + (j : Int)) ∈ columnMajorRowPositions stride i n := by
  induction n with
  | zero => omega
  | succ n ih =>
    simp only [columnMajorRowPositions, List.mem_append, List.mem_singleton]
    rcases Nat.lt_succ_iff_lt_or_eq.mp hj with h | h
    · exact Or.inl (ih h)
    · subst h; exact Or.inr rfl

theorem mem_columnMajorWritePositions (stride : Int) (i j n : Nat) (hi : i < n)
    (hj : j < stride.toNat) :
    wrap32 (wrap32 ((i : Int) * stride) + (j : Int)) ∈ columnMajorWritePositions stride n := by
  induction n with
  | zero => omega
  | succ n ih =>
    simp only [columnMajorWritePositions, List.mem_append]
    rcases Nat.lt_succ_iff_lt_or_eq.mp hi with h | h
    · exact Or.inl (ih h)
    · subst h; exact Or.inr (mem_columnMajorRowPositions stride _ j _ hj)

/-- When the index buffer has fewer than `stride * stride` elements, the
construction writes position `N` (row `N / stride`, column `N % stride`) and
does not go through. -/
theorem columnMajorIndex_eq_none_of_lt (m : ShiftModel) (k N S : Nat)
    (hN : sizeN m k = (N : Int)) (hS : columnMajorStride m k = (S : Int)) (h1 : N < S * S)
    (h2 : N < 2147483648) :
    (N : Int) ∈ columnMajorWritePositions (S : Int) S ∧ columnMajorIndex m k = none := by
  have hS0 : 0 < S := by
    rcases Nat.eq_zero_or_pos S with h0 | h0
    · subst h0; omega
    · exact h0
  have hi : N / S < S := Nat.div_lt_of_lt_mul h1
  have hj : N % S < S := Nat.mod_lt _ hS0
  have hdm : N / S * S + N % S = N := by
    rw [Nat.mul_comm]; exact Nat.div_add_mod N S
  have hpos : wrap32 (wrap32 (((N / S : Nat) : Int) * (S : Int)) + ((N % S : Nat) : Int)) =
      (N : Int) := by
    have h0 : wrap32 (((N / S : Nat) : Int) * (S : Int)) = ((N / S * S : Nat) : Int) := by
      rw [← Nat.cast_mul]
      exact wrap32_of_range (by omega) (by omega)
    rw [h0, ← Nat.cast_add, hdm]
    exact wrap32_of_range (by omega) (by omega)
  have hmem : (N : Int) ∈ columnMajorWritePositions (S : Int) S := by
    have := mem_columnMajorWritePositions (S : Int) (N / S) (N % S) S hi
      (by rw [Int.toNat_ofNat]; exact hj)
    rw [hpos] at this
    exact this
  refine ⟨hmem, ?_⟩
  have hv : vectorNew (N : Int) = some (List.replicate N 0) := by simp [vectorNew]
  rw [columnMajorIndex, hN, hS, hv, Option.some_bind]
  cases hc : columnMajorLoop (S : Int) (List.replicate N 0) with
  | none => rfl
  | some r =>
    have hsome : (columnMajorLoop (S : Int) (List.replicate N 0)).isSome := by simp [hc]
    have := (columnMajorLoop_isSome_iff _ _).mp hsome (N : Int)
      (by rw [Int.toNat_ofNat]; exact hmem)
    rw [Int.toNat_ofNat, List.length_replicate] at this
    omega

/-- C11: evaluation at the sizes `N = 4, 8, 16, 32` (`2 ≤ k ≤ 5`). Line 39
gives the stride `1 << (N / 2)`, namely `4, 16, 256, 65536`, and the double
loop runs over `stride * stride > N` positions: it writes position `N`, outside
the length-`N` index buffer, and the construction does not go through. -/
theorem columnMajor_writes_outside (m : ShiftModel) (k : Nat) (h2 : 2 ≤ k) (h5 : k ≤ 5) :
    sizeN m k = 2 ^ k ∧
      ((2 ^ k : Nat) : Int) ∈
        columnMajorWritePositions (columnMajorStride m k) (columnMajorStride m k).toNat ∧
      columnMajorIndex m k = none := by
  have hN := sizeN_of_le m (show k ≤ 30 by omega)
  have hNc : sizeN m k = ((2 ^ k : Nat) : Int) := by rw [hN]; push_cast; rfl
  have hS : columnMajorStride m k = ((2 ^ 2 ^ (k - 1) : Nat) : Int) := by
    interval_cases k <;> cases m <;> decide
  have hlt : 2 ^ k < 2 ^ 2 ^ (k - 1) * 2 ^ 2 ^ (k - 1) := by
    interval_cases k <;> decide
  have hb : 2 ^ k < 2147483648 := by
    interval_cases k <;> decide
  obtain ⟨hmem, hnone⟩ := columnMajorIndex_eq_none_of_lt m k _ _ hNc hS hlt hb
  refine ⟨hN, ?_, hnone⟩
  rw [hS, Int.toNat_ofNat]
  exact hmem

/-- C11 at `k = 2`: for `N = 4` the stride is `4` and position `4` is written. -/
theorem columnMajor_writes_outside_witness :
    sizeN ShiftModel.mask 2 = 2 ^ 2 ∧
      ((2 ^ 2 : Nat) : Int) ∈
        columnMajorWritePositions (columnMajorStride ShiftModel.mask 2)
          (columnMajorStride ShiftModel.mask 2).toNat ∧
      columnMajorIndex ShiftModel.mask 2 = none :=
  columnMajor_writes_outside ShiftModel.mask 2 (by decide) (by decide)

/-! ## Permutation index buffers -/

theorem wrap32_idem (x : Int) : wrap32 (wrap32 x) = wrap32 x := by
  unfold wrap32; omega

/-- A buffer of length `N` that holds every value of `[0, N)` once is a
rearrangement of the list `0, 1, ..., N - 1`. -/
theorem isPermOfRange_perm {v : List Int} {N : Nat} (h : IsPermOfRange v N) :
    ((List.range N).map (fun i : Nat => (i : Int))).Perm v := by
  apply List.Subperm.perm_of_length_le
  · apply List.Nodup.subperm ((List.nodup_range N).map Nat.cast_injective)
    intro x hx
    obtain ⟨i, hi, rfl⟩ := List.mem_map.mp hx
    have hc := h.2 (i : Int) (by omega) (by exact_mod_cast List.mem_range.mp hi)
    exact List.count_pos_iff.mp (by omega)
  · simp [h.1]

theorem isPermOfRange_nodup {v : List Int} {N : Nat} (h : IsPermOfRange v N) : v.Nodup :=
  (isPermOfRange_perm h).nodup_iff.mp ((List.nodup_range N).map Nat.cast_injective)

theorem isPermOfRange_mem {v : List Int} {N : Nat} (h : IsPermOfRange v N) {x : Int}
    (hx : x ∈ v) : 0 ≤ x ∧ x < (N : Int) := by
  obtain ⟨i, hi, rfl⟩ := List.mem_map.mp ((isPermOfRange_perm h).mem_iff.mpr hx)
  have := List.mem_range.mp hi
  omega

/-- In a permutation of `[0, N)` every value `p` sits at some position. -/
theorem isPermOfRange_index {v : List Int} {N : Nat} (h : IsPermOfRange v N) (p : Nat)
    (hp : p < N) : ∃ i : Nat, i < N ∧ v[i]? = some (p : Int) := by
  have hc := h.2 (p : Int) (by omega) (by omega)
  have hmem : (p : Int) ∈ v := List.count_pos_iff.mp (by omega)
  obtain ⟨i, hi⟩ := List.mem_iff_getElem?.mp hmem
  have hil := (List.getElem?_eq_some.mp hi).1
  exact ⟨i, by rw [← h.1]; exact hil, hi⟩

/-- In a permutation of `[0, N)` every position holds a value of `[0, N)`. -/
theorem isPermOfRange_getElem? {v : List Int} {N : Nat} (h : IsPermOfRange v N) (i : Nat)
    (hi : i < N) : ∃ q : Nat, q < N ∧ v[i]? = some (q : Int) := by
  have hil : i < v.length := by rw [h.1]; exact hi
  obtain ⟨h0, h1⟩ := isPermOfRange_mem h (List.getElem_mem hil)
  obtain ⟨q, hq⟩ := Int.eq_ofNat_of_zero_le h0
  exact ⟨q, by rw [hq] at h1; omega, by rw [List.getElem?_eq_getElem hil, hq]⟩

/-! ## Consecutive sweeps -/

theorem keepRunning_succ {σ : Type} (body : σ → Option σ) (n : Nat) (s : σ) :
    keepRunning body (n + 1) s = (keepRunning body n s).bind body := rfl

/-- Any number of sweeps over an index buffer of valid subscripts returns and
keeps the length of the output buffer. -/
theorem keepRunning_sweep_some (N : Nat) (v_in v_out : List Int) (hl : N ≤ v_in.length)
    (hin : ∀ x ∈ v_in, 0 ≤ x ∧ x < (v_out.length : Int)) (iters : Nat) :
    ∃ out, keepRunning (sweep (N : Int) v_in) iters v_out = some out ∧
      out.length = v_out.length := by
  induction iters with
  | zero => exact ⟨v_out, rfl, rfl⟩
  | succ n ih =>
    obtain ⟨o1, h1, hl1⟩ := ih
    obtain ⟨o2, h2, hl2⟩ := forLoop_sweepStep_some v_in o1 N hl (by rw [hl1]; exact hin)
    exact ⟨o2, by rw [keepRunning_succ, h1, Option.some_bind, sweep, Int.toNat_ofNat]; exact h2,
      by rw [hl2, hl1]⟩

/-- The state after `iters` sweeps: slot `p` holds its initial value plus
`iters` times the sum of the indices sent to it, reduced to 32 bits. -/
theorem keepRunning_sweep (N : Nat) (v_in v_out : List Int) (hl : N ≤ v_in.length)
    (hin : ∀ x ∈ v_in, 0 ≤ x ∧ x < (v_out.length : Int))
    (hr : ∀ (p : Nat) (a : Int), v_out[p]? = some a → wrap32 a = a) (iters : Nat) :
    ∃ out, keepRunning (sweep (N : Int) v_in) iters v_out = some out ∧
      out.length = v_out.length ∧
      ∀ (p : Nat) (a : Int), v_out[p]? = some a →
        out[p]? = some (wrap32 (a + (iters : Int) * slotTotal v_in (p : Int) N)) := by
  induction iters with
  | zero =>
    exact ⟨v_out, rfl, rfl, fun p a h => by simp [hr p a h, h]⟩
  | succ n ih =>
    obtain ⟨o1, h1, hl1, hp1⟩ := ih
    have hr1 : ∀ (p : Nat) (b : Int), o1[p]? = some b → wrap32 b = b := by
      intro p b hb
      have hpl : p < v_out.length := by
        rw [← hl1]; exact (List.getElem?_eq_some.mp hb).1
      have := hp1 p _ (List.getElem?_eq_getElem hpl)
      rw [hb] at this
      rw [Option.some.inj this, wrap32_idem]
    obtain ⟨o2, h2, hl2, hp2⟩ := forLoop_sweepStep v_in o1 N hl
      (fun i x _ hx => by rw [hl1]; exact hin x (List.getElem?_mem hx)) hr1
    refine ⟨o2, by rw [keepRunning_succ, h1, Option.some_bind, sweep, Int.toNat_ofNat]; exact h2,
      by rw [hl2, hl1], ?_⟩
    intro p a ha
    rw [hp2 p _ (hp1 p a ha), wrap32_add_left]
    congr 2
    push_cast
    ring

/-- After `iters` sweeps from zeros over a permutation of `[0, N)`, the slot
`v_in[i]` holds `iters * i` reduced to 32 bits. -/
theorem keepRunning_sweep_perm (N : Nat) (v_in : List Int) (hperm : IsPermOfRange v_in N)
    (iters : Nat) :
    ∃ out, keepRunning (sweep (N : Int) v_in) iters (List.replicate N 0) = some out ∧
      out.length = N ∧
      ∀ i q : Nat, i < N → v_in[i]? = some (q : Int) →
        out[q]? = some (wrap32 ((iters : Int) * (i : Int))) := by
  obtain ⟨out, ho, hlen, hp⟩ := keepRunning_sweep N v_in (List.replicate N 0)
    (by rw [hperm.1])
    (fun x hx => by rw [List.length_replicate]; exact isPermOfRange_mem hperm hx)
    (fun p a h => by
      have := List.getElem?_mem h
      rw [List.eq_of_mem_replicate this]; rfl)
    iters
  refine ⟨out, ho, by rw [hlen, List.length_replicate], fun i q hi hq => ?_⟩
  have hqN : q < N := by
    have := (isPermOfRange_mem hperm (List.getElem?_mem hq)).2
    omega
  rw [hp q 0 (List.getElem?_replicate_of_lt hqN), zero_add,
    slotTotal_of_nodup v_in (isPermOfRange_nodup hperm) (q : Int) i N hi (by rw [hperm.1]) hq]

/-- C12. For every index buffer `v_in` that is a permutation of `[0, N)` (`N`
an `int`) and an output buffer of `N` zeros, one sweep returns an output buffer
of length `N` in which every slot is written by exactly one iteration:
`output[v_in[i]] = i` for every `i` in `[0, N)`, and `v_in[output[p]] = p` for
every `p` in `[0, N)`, so the output buffer is the inverse permutation. -/
theorem sweep_inverse_permutation (N : Nat) (v_in : List Int) (hb : N < 2147483648)
    (hperm : IsPermOfRange v_in N) :
    ∃ out, sweep (N : Int) v_in (List.replicate N 0) = some out ∧ out.length = N ∧
      (∀ i : Nat, i < N → (v_in[i]?).bind (vecRead out) = some (i : Int)) ∧
      (∀ p : Nat, p < N → (out[p]?).bind (vecRead v_in) = some (p : Int)) ∧
      ∀ p : Nat, p < N → ∃! i : Nat, v_in[i]? = some (p : Int) := by
  obtain ⟨out, ho, hlen, hp⟩ := keepRunning_sweep_perm N v_in hperm 1
  have hval : ∀ i q : Nat, i < N → v_in[i]? = some (q : Int) → out[q]? = some (i : Int) := by
    intro i q hi hq
    rw [hp i q hi hq, Nat.cast_one, one_mul, wrap32_of_range (by omega) (by omega)]
  refine ⟨out, ho, hlen, fun i hi => ?_, fun p hpN => ?_, fun p hpN => ?_⟩
  · obtain ⟨q, -, hq⟩ := isPermOfRange_getElem? hperm i hi
    rw [hq, Option.some_bind, vecRead_natCast, hval i q hi hq]
  · obtain ⟨i, hi, hip⟩ := isPermOfRange_index hperm p hpN
    rw [hval i p hi hip, Option.some_bind, vecRead_natCast, hip]
  · obtain ⟨i, hi, hip⟩ := isPermOfRange_index hperm p hpN
    refine ⟨i, hip, fun j hj => ?_⟩
    exact List.getElem?_inj (List.getElem?_eq_some.mp hj).1 (isPermOfRange_nodup hperm)
      (hj.trans hip.symm)

/-- C12 at `N = 4` on the index buffer `[2, 0, 3, 1]`. -/
theorem sweep_inverse_permutation_witness :
    IsPermOfRange [2, 0, 3, 1] 4 ∧
      ∃ out, sweep ((4 : Nat) : Int) [2, 0, 3, 1] (List.replicate 4 0) = some out ∧
        out.length = 4 ∧
        (∀ i : Nat, i < 4 → (([2, 0, 3, 1] : List Int)[i]?).bind (vecRead out) = some (i : Int)) ∧
        (∀ p : Nat, p < 4 → (out[p]?).bind (vecRead [2, 0, 3, 1]) = some (p : Int)) ∧
        ∀ p : Nat, p < 4 → ∃! i : Nat, ([2, 0, 3, 1] : List Int)[i]? = some (p : Int) :=
  have h : IsPermOfRange [2, 0, 3, 1] 4 :=
    ⟨rfl, fun x h0 h4 => by
      have hx : x = 0 ∨ x = 1 ∨ x = 2 ∨ x = 3 := by omega
      rcases hx with rfl | rfl | rfl | rfl <;> decide⟩
  ⟨h, sweep_inverse_permutation 4 [2, 0, 3, 1] (by decide) h⟩

/-- C14. For every index buffer `v_in` that is a permutation of `[0, N)`, an
output buffer of `N` zeros and every number `m` of consecutive
sweeps, the sweeps return and `output[v_in[i]]` is `m * i` reduced to 32 bits,
for every `i` in `[0, N)`; when `m * (N - 1) ≤ 2^31 - 1` the stored value is
`m * i` itself, and so it is after each of the first `m` sweeps: no addition of
these sweeps leaves the range of `int`. -/
theorem sweeps_accumulate (N : Nat) (v_in : List Int) (hperm : IsPermOfRange v_in N)
    (m : Nat) :
    (∃ out, keepRunning (sweep (N : Int) v_in) m (List.replicate N 0) = some out ∧
        out.length = N ∧
        ∀ i : Nat, i < N →
          (v_in[i]?).bind (vecRead out) = some (wrap32 ((m : Int) * (i : Int)))) ∧
      ((m : Int) * ((N : Int) - 1) ≤ 2147483647 →
        ∀ j : Nat, j ≤ m →
          ∃ out, keepRunning (sweep (N : Int) v_in) j (List.replicate N 0) = some out ∧
            ∀ i : Nat, i < N → (v_in[i]?).bind (vecRead out) = some ((j : Int) * (i : Int))) := by
  have key : ∀ j : Nat,
      ∃ out, keepRunning (sweep (N : Int) v_in) j (List.replicate N 0) = some out ∧
        out.length = N ∧
        ∀ i : Nat, i < N →
          (v_in[i]?).bind (vecRead out) = some (wrap32 ((j : Int) * (i : Int))) := by
    intro j
    obtain ⟨out, ho, hlen, hp⟩ := keepRunning_sweep_perm N v_in hperm j
    refine ⟨out, ho, hlen, fun i hi => ?_⟩
    obtain ⟨q, -, hq⟩ := isPermOfRange_getElem? hperm i hi
    rw [hq, Option.some_bind, vecRead_natCast, hp i q hi hq]
  refine ⟨key m, fun hbound j hj => ?_⟩
  obtain ⟨out, ho, -, hv⟩ := key j
  refine ⟨out, ho, fun i hi => ?_⟩
  rw [hv i hi]
  have h1 : (0 : Int) ≤ (j : Int) * (i : Int) := by positivity
  have h2 : (j : Int) * (i : Int) ≤ (m : Int) * ((N : Int) - 1) := by
    have hji : (j : Int) ≤ (m : Int) := by exact_mod_cast hj
    have hiN : (i : Int) ≤ (N : Int) - 1 := by omega
    exact mul_le_mul hji hiN (by omega) (by omega)
  rw [wrap32_of_range (by omega) (by omega)]

/-- C14 at `N = 4` on the index buffer `[2, 0, 3, 1]` and `m = 3` sweeps. -/
theorem sweeps_accumulate_witness :
    (∃ out, keepRunning (sweep ((4 : Nat) : Int) [2, 0, 3, 1]) 3 (List.replicate 4 0) =
          some out ∧ out.length = 4 ∧
        ∀ i : Nat, i < 4 →
          (([2, 0, 3, 1] : List Int)[i]?).bind (vecRead out) =
            some (wrap32 (((3 : Nat) : Int) * (i : Int)))) ∧
      (((3 : Nat) : Int) * (((4 : Nat) : Int) - 1) ≤ 2147483647 →
        ∀ j : Nat, j ≤ 3 →
          ∃ out, keepRunning (sweep ((4 : Nat) : Int) [2, 0, 3, 1]) j (List.replicate 4 0) =
              some out ∧
            ∀ i : Nat, i < 4 →
              (([2, 0, 3, 1] : List Int)[i]?).bind (vecRead out) = some ((j : Int) * (i : Int))) :=
  sweeps_accumulate 4 [2, 0, 3, 1]
    ⟨rfl, fun x h0 h4 => by
      have hx : x = 0 ∨ x = 1 ∨ x = 2 ∨ x = 3 := by omega
      rcases hx with rfl | rfl | rfl | rfl <;> decide⟩ 3

/-! ## The benchmarks as a whole -/

theorem vectorNew_natCast (N : Nat) : vectorNew (N : Int) = some (List.replicate N 0) := by
  simp [vectorNew]

theorem runTimed_eq_some (loop : Int → List Int → List Int → Option (List Int)) (N iters : Nat)
    (v_in out : List Int)
    (h : keepRunning (loop (N : Int) v_in) iters (List.replicate N 0) = some out) :
    runTimed loop (N : Int) iters v_in = some (v_in, out) := by
  rw [runTimed, vectorNew_natCast, Option.some_bind, h]
  rfl

theorem runTimed_eq_none (loop : Int → List Int → List Int → Option (List Int)) (N iters : Nat)
    (v_in : List Int)
    (h : keepRunning (loop (N : Int) v_in) iters (List.replicate N 0) = none) :
    runTimed loop (N : Int) iters v_in = none := by
  rw [runTimed, vectorNew_natCast, Option.some_bind, h]
  rfl

/-- Any number of sweeps of a benchmark over an index buffer of valid
subscripts returns the index buffer it was given and an output buffer of the
same length. -/
theorem runTimed_sweep_some (N iters : Nat) (v_in : List Int) (hl : N ≤ v_in.length)
    (hin : ∀ x ∈ v_in, 0 ≤ x ∧ x < (N : Int)) :
    ∃ out, runTimed sweep (N : Int) iters v_in = some (v_in, out) ∧ out.length = N := by
  obtain ⟨out, ho, hlen⟩ := keepRunning_sweep_some N v_in (List.replicate N 0) hl
    (by rw [List.length_replicate]; exact hin) iters
  exact ⟨out, runTimed_eq_some sweep N iters v_in out ho, by rw [hlen, List.length_replicate]⟩

/-- Cut before its last iteration, the loop of `randomPrefetch` computes what
the plain sweep computes. -/
theorem forLoop_prefetchStep_eq (v_in v_out : List Int) (hb : v_in.length < 2147483648)
    (hin : ∀ x ∈ v_in, 0 ≤ x ∧ x < (v_out.length : Int)) (n : Nat) (hn : n < v_in.length) :
    forLoop (prefetchStep v_in) n v_out = forLoop (sweepStep v_in) n v_out := by
  induction n with
  | zero => rfl
  | succ n ih =>
    obtain ⟨out, ho, hlen⟩ := forLoop_sweepStep_some v_in v_out n (by omega) hin
    rw [forLoop_succ, forLoop_succ, ih (by omega), ho, Option.some_bind, Option.some_bind]
    exact prefetchStep_eq_sweepStep v_in out n hn hb (by rw [hlen]; exact hin)

/-- C16. For every `N` and every index buffer of length `N` that is a
permutation of `[0, N)`, each subscript `v_in[i]`, `i` in `[0, N)`, lies in
`[0, N)`, and the sweep over an output buffer of length `N` returns after each
of its iterations: its out-of-range branch is never taken. So do `rowMajor` and
`random`, for every size `N = 2^k`, every outcome of the shuffle and every
number of sweeps. -/
theorem sweep_in_bounds (N : Nat) (v_in v_out : List Int) (hperm : IsPermOfRange v_in N)
    (hlo : v_out.length = N) (m : ShiftModel) (draw : Nat → Nat) (k : Nat)
    (hN : sizeN m k = 2 ^ k) (iters : Nat) :
    (∀ i : Nat, i < N → ∃ x : Int, v_in[i]? = some x ∧ 0 ≤ x ∧ x < (N : Int)) ∧
      (∀ n : Nat, n ≤ N →
        ∃ out, forLoop (sweepStep v_in) n v_out = some out ∧ out.length = N) ∧
      (∃ out, sweep (N : Int) v_in v_out = some out ∧ out.length = N) ∧
      (∃ r, rowMajor m k iters = some r) ∧ ∃ r, random m draw k iters = some r := by
  have hin : ∀ x ∈ v_in, 0 ≤ x ∧ x < (v_out.length : Int) := by
    rw [hlo]; exact fun x hx => isPermOfRange_mem hperm hx
  have hloop : ∀ n : Nat, n ≤ N →
      ∃ out, forLoop (sweepStep v_in) n v_out = some out ∧ out.length = N := by
    intro n hn
    obtain ⟨out, ho, hlen⟩ := forLoop_sweepStep_some v_in v_out n (by rw [hperm.1]; exact hn) hin
    exact ⟨out, ho, by rw [hlen, hlo]⟩
  have hlt := pow_two_lt_of_sizeN hN
  have hcast : sizeN m k = ((2 ^ k : Nat) : Int) := by rw [hN]; push_cast; rfl
  have hiota := isPermOfRange_iota hlt
  have hshuf := isPermOfRange_shuffle draw hiota
  refine ⟨fun i hi => ?_, hloop, ?_, ?_, ?_⟩
  · obtain ⟨q, hq, hiq⟩ := isPermOfRange_getElem? hperm i hi
    exact ⟨q, hiq, by omega, by omega⟩
  · obtain ⟨out, ho, hlen⟩ := hloop N (le_refl _)
    exact ⟨out, by rw [sweep, Int.toNat_ofNat]; exact ho, hlen⟩
  · obtain ⟨out, ho, -⟩ := runTimed_sweep_some (2 ^ k) iters _ (by rw [hiota.1])
      (fun x hx => isPermOfRange_mem hiota hx)
    exact ⟨_, by rw [rowMajor, rowMajorIndex_eq hN, Option.some_bind, hcast]; exact ho⟩
  · obtain ⟨out, ho, -⟩ := runTimed_sweep_some (2 ^ k) iters _ (by rw [hshuf.1])
      (fun x hx => isPermOfRange_mem hshuf hx)
    exact ⟨_, by rw [random, randomIndex_eq draw hN, Option.some_bind, hcast]; exact ho⟩

/-- C16 at `N = 4` on the index buffer `[2, 0, 3, 1]` and the output buffer
`[7, 7, 7, 7]`, and for the benchmarks at `k = 4` with two sweeps. -/
theorem sweep_in_bounds_witness :
    (∀ i : Nat, i < 4 →
        ∃ x : Int, ([2, 0, 3, 1] : List Int)[i]? = some x ∧ 0 ≤ x ∧ x < ((4 : Nat) : Int)) ∧
      (∀ n : Nat, n ≤ 4 →
        ∃ out, forLoop (sweepStep [2, 0, 3, 1]) n [7, 7, 7, 7] = some out ∧ out.length = 4) ∧
      (∃ out, sweep ((4 : Nat) : Int) [2, 0, 3, 1] [7, 7, 7, 7] = some out ∧ out.length = 4) ∧
      (∃ r, rowMajor ShiftModel.mask 4 2 = some r) ∧
      ∃ r, random ShiftModel.mask (fun i => 7 * i + 3) 4 2 = some r :=
  sweep_in_bounds 4 [2, 0, 3, 1] [7, 7, 7, 7]
    ⟨rfl, fun x h0 h4 => by
      have hx : x = 0 ∨ x = 1 ∨ x = 2 ∨ x = 3 := by omega
      rcases hx with rfl | rfl | rfl | rfl <;> decide⟩
    rfl ShiftModel.mask (fun i => 7 * i + 3) 4 (sizeN_of_le _ (by decide)) 2

/-! ## `columnMajor` at the registered sizes -/

theorem slotTotal_replicate_zero (N p n : Nat) (hp : p ≠ 0) :
    slotTotal (List.replicate N 0) (p : Int) n = 0 := by
  apply slotTotal_eq_zero
  intro i _ hix
  have := List.eq_of_mem_replicate (List.getElem?_mem hix)
  exact hp (by exact_mod_cast this)

/-- C15. For each registered exponent `k` in `{20, 22, 24}`, under either
evaluation of the oversized shift, the stride of `columnMajor` is `0` or `1`;
the construction writes no position but position `0`; the index buffer has
length `N = 2^k` and holds `0` at every position, so every write of a sweep
goes to output slot `0`; and after any number of sweeps every other output slot
still holds `0`. -/
theorem columnMajor_registered (m : ShiftModel) (k : Nat) (hk : k = 20 ∨ k = 22 ∨ k = 24)
    (iters : Nat) :
    (columnMajorStride m k = 0 ∨ columnMajorStride m k = 1) ∧
      (∀ p ∈ columnMajorWritePositions (columnMajorStride m k) (columnMajorStride m k).toNat,
        p = 0) ∧
      ∃ v_in out, columnMajorIndex m k = some v_in ∧ columnMajor m k iters = some (v_in, out) ∧
        v_in.length = 2 ^ k ∧ (∀ i : Nat, i < 2 ^ k → v_in[i]? = some 0) ∧
        out.length = 2 ^ k ∧ ∀ p : Nat, 0 < p → p < 2 ^ k → out[p]? = some 0 := by
  have h6 : 6 ≤ k := by omega
  have h30 : k ≤ 30 := by omega
  have hN := sizeN_of_le m h30
  have hcast : sizeN m k = ((2 ^ k : Nat) : Int) := by rw [hN]; push_cast; rfl
  have hpos : 0 < 2 ^ k := by positivity
  have hidx := columnMajorIndex_of_large m h6 h30
  have hs := columnMajorStride_of_large m h6 h30
  obtain ⟨out, ho, hlen, hp⟩ := keepRunning_sweep (2 ^ k) (List.replicate (2 ^ k) 0)
    (List.replicate (2 ^ k) 0) (by rw [List.length_replicate])
    (fun x hx => by
      rw [List.eq_of_mem_replicate hx, List.length_replicate]
      omega)
    (fun p a h => by rw [List.eq_of_mem_replicate (List.getElem?_mem h)]; rfl)
    iters
  refine ⟨?_, ?_, List.replicate (2 ^ k) 0, out, hidx, ?_, List.length_replicate _ _,
    fun i hi => List.getElem?_replicate_of_lt hi, by rw [hlen, List.length_replicate],
    fun p hp0 hpN => ?_⟩
  · cases m
    · exact Or.inl hs
    · exact Or.inr hs
  · rw [hs]
    cases m <;> decide
  · rw [columnMajor, hidx, Option.some_bind, hcast]
    exact runTimed_eq_some sweep (2 ^ k) iters _ out ho
  · rw [hp p 0 (List.getElem?_replicate_of_lt hpN),
      slotTotal_replicate_zero _ _ _ (by omega), mul_zero, add_zero]
    rfl

/-- C15 at `k = 20`, the masked shift and one sweep. -/
theorem columnMajor_registered_witness :
    (columnMajorStride ShiftModel.mask 20 = 0 ∨ columnMajorStride ShiftModel.mask 20 = 1) ∧
      (∀ p ∈ columnMajorWritePositions (columnMajorStride ShiftModel.mask 20)
          (columnMajorStride ShiftModel.mask 20).toNat, p = 0) ∧
      ∃ v_in out, columnMajorIndex ShiftModel.mask 20 = some v_in ∧
        columnMajor ShiftModel.mask 20 1 = some (v_in, out) ∧
        v_in.length = 2 ^ 20 ∧ (∀ i : Nat, i < 2 ^ 20 → v_in[i]? = some 0) ∧
        out.length = 2 ^ 20 ∧ ∀ p : Nat, 0 < p → p < 2 ^ 20 → out[p]? = some 0 :=
  columnMajor_registered ShiftModel.mask 20 (Or.inl rfl) 1

/-! ## The timed loops as they execute -/

/-- The checked body of the loop of `randomPrefetch` either reports a
subscript outside its vector or leaves what the addition leaves. -/
theorem prefetchStep_eq_none_or (v_in v_out : List Int) (i : Int) :
    prefetchStep v_in v_out i = none ∨ prefetchStep v_in v_out i = sweepStep v_in v_out i := by
  unfold prefetchStep
  cases vecRead v_in (wrap32 (i + 1)) with
  | none => exact Or.inl rfl
  | some x =>
    rw [Option.some_bind]
    cases vecRef v_out x with
    | none => exact Or.inl rfl
    | some u => exact Or.inr rfl

/-- The addition on the state of the machine stores what `sweepStep` stores,
into `v_out`, and leaves `v_in` and the log as they are. -/
theorem addStmt_eq (s : LoopState) (i : Int) :
    addStmt s i = (sweepStep s.v_in s.v_out i).map fun out => ⟨s.v_in, out, s.hints⟩ := by
  unfold addStmt sweepStep
  cases vecRead s.v_in i with
  | none => rfl
  | some x =>
    rw [Option.some_bind, Option.some_bind]
    cases vecRead s.v_out x with
    | none => rfl
    | some y => rfl

theorem addStmt_frame (s t : LoopState) (i : Int) (h : addStmt s i = some t) :
    t.v_in = s.v_in ∧ t.v_out.length = s.v_out.length := by
  unfold addStmt at h
  cases h1 : vecRead s.v_in i with
  | none => rw [h1] at h; cases h
  | some x =>
    rw [h1, Option.some_bind] at h
    cases h2 : vecRead s.v_out x with
    | none => rw [h2] at h; cases h
    | some y =>
      rw [h2, Option.some_bind] at h
      cases h3 : vecWrite s.v_out x (wrap32 (y + i)) with
      | none => rw [h3] at h; cases h
      | some out =>
        rw [h3] at h
        cases h
        exact ⟨rfl, length_of_vecWrite h3⟩

theorem forLoop_addStmt (n : Nat) (s : LoopState) :
    forLoop addStmt n s =
      (forLoop (sweepStep s.v_in) n s.v_out).map fun out => ⟨s.v_in, out, s.hints⟩ := by
  induction n with
  | zero => rfl
  | succ n ih =>
    rw [forLoop_succ, forLoop_succ, ih]
    cases forLoop (sweepStep s.v_in) n s.v_out with
    | none => rfl
    | some out =>
      rw [Option.map_some', Option.some_bind, Option.some_bind, addStmt_eq]

/-- The loop of `randomPrefetch` as it executes stores what the plain sweep
stores: the hints only lengthen the log. -/
theorem forLoop_hinted (past : Int → Int) (n : Nat) (s : LoopState) :
    ∃ hints, forLoop (fun t i => addStmt (hintStmt past t i) i) n s =
      (forLoop (sweepStep s.v_in) n s.v_out).map fun out => ⟨s.v_in, out, hints⟩ := by
  induction n with
  | zero => exact ⟨s.hints, rfl⟩
  | succ n ih =>
    obtain ⟨h1, e1⟩ := ih
    refine ⟨h1 ++ [rawRead past s.v_in (wrap32 ((n : Int) + 1))], ?_⟩
    rw [forLoop_succ, forLoop_succ, e1]
    cases forLoop (sweepStep s.v_in) n s.v_out with
    | none => rfl
    | some out =>
      rw [Option.map_some', Option.some_bind, Option.some_bind, addStmt_eq]
      rfl

theorem plainLoop_eq (N : Nat) (s : LoopState) :
    plainLoop (N : Int) s =
      (sweep (N : Int) s.v_in s.v_out).map fun out => ⟨s.v_in, out, s.hints⟩ :=
  forLoop_addStmt _ s

theorem hintedLoop_eq (past : Int → Int) (N : Nat) (s : LoopState) :
    ∃ hints, hintedLoop past (N : Int) s =
      (sweep (N : Int) s.v_in s.v_out).map fun out => ⟨s.v_in, out, hints⟩ :=
  forLoop_hinted past _ s

theorem keepRunning_plainLoop (N iters : Nat) (s : LoopState) :
    keepRunning (plainLoop (N : Int)) iters s =
      (keepRunning (sweep (N : Int) s.v_in) iters s.v_out).map
        fun out => ⟨s.v_in, out, s.hints⟩ := by
  induction iters with
  | zero => rfl
  | succ n ih =>
    rw [keepRunning_succ, keepRunning_succ, ih]
    cases keepRunning (sweep (N : Int) s.v_in) n s.v_out with
    | none => rfl
    | some out =>
      rw [Option.map_some', Option.some_bind, Option.some_bind, plainLoop_eq]

theorem keepRunning_hintedLoop (past : Int → Int) (N iters : Nat) (s : LoopState) :
    ∃ hints, keepRunning (hintedLoop past (N : Int)) iters s =
      (keepRunning (sweep (N : Int) s.v_in) iters s.v_out).map
        fun out => ⟨s.v_in, out, hints⟩ := by
  induction iters with
  | zero => exact ⟨s.hints, rfl⟩
  | succ n ih =>
    obtain ⟨h1, e1⟩ := ih
    cases hk : keepRunning (sweep (N : Int) s.v_in) n s.v_out with
    | none =>
      refine ⟨h1, ?_⟩
      rw [keepRunning_succ, keepRunning_succ, e1, hk]
      rfl
    | some out =>
      obtain ⟨h2, e2⟩ := hintedLoop_eq past N ⟨s.v_in, out, h1⟩
      refine ⟨h2, ?_⟩
      rw [keepRunning_succ, keepRunning_succ, e1, hk, Option.map_some', Option.some_bind,
        Option.some_bind, e2]

/-- C6. The prefetch hint never changes the result. For every `N`, every
index buffer of length `N` with entries in `[0, N)`, every initial output
buffer of length `N` and whatever the memory past the end of `v_in` holds, one
sweep of the loop of `randomPrefetch` returns and leaves the output buffer that
one sweep of the loop of `random` leaves, the index buffer being untouched; and
for every size `N = 2^k`, every outcome of the shuffle and every number of
sweeps the benchmarks `random` and `randomPrefetch` end with the same index
buffer and the same output buffer. -/
theorem hint_keeps_result (past : Int → Int) (N : Nat) (s : LoopState)
    (hl : s.v_in.length = N) (hlo : s.v_out.length = N)
    (hin : ∀ x ∈ s.v_in, 0 ≤ x ∧ x < (N : Int))
    (m : ShiftModel) (draw : Nat → Nat) (k : Nat) (hN : sizeN m k = 2 ^ k) (iters : Nat) :
    (∃ out hints, sweep (N : Int) s.v_in s.v_out = some out ∧
        plainLoop (N : Int) s = some ⟨s.v_in, out, s.hints⟩ ∧
        hintedLoop past (N : Int) s = some ⟨s.v_in, out, hints⟩) ∧
      ∃ v_in out hints, random m draw k iters = some (v_in, out) ∧
        randomPrefetchExec past m draw k iters = some ⟨v_in, out, hints⟩ := by
  constructor
  · obtain ⟨out, ho, -⟩ := forLoop_sweepStep_some s.v_in s.v_out N (by omega)
      (by rw [hlo]; exact hin)
    have hsw : sweep (N : Int) s.v_in s.v_out = some out := by
      rw [sweep, Int.toNat_ofNat]; exact ho
    obtain ⟨hints, hh⟩ := hintedLoop_eq past N s
    exact ⟨out, hints, hsw, by rw [plainLoop_eq, hsw]; rfl, by rw [hh, hsw]; rfl⟩
  · have hlt := pow_two_lt_of_sizeN hN
    have hcast : sizeN m k = ((2 ^ k : Nat) : Int) := by rw [hN]; push_cast; rfl
    have hshuf := isPermOfRange_shuffle draw (isPermOfRange_iota hlt)
    obtain ⟨out, ho, -⟩ := keepRunning_sweep_some (2 ^ k) _ (List.replicate (2 ^ k) 0)
      (by rw [hshuf.1])
      (fun x hx => by rw [List.length_replicate]; exact isPermOfRange_mem hshuf hx) iters
    obtain ⟨hints, hh⟩ := keepRunning_hintedLoop past (2 ^ k) iters
      ⟨shuffle draw (iota (List.replicate (2 ^ k) 0) 0), List.replicate (2 ^ k) 0, []⟩
    dsimp only at hh
    refine ⟨shuffle draw (iota (List.replicate (2 ^ k) 0) 0), out, hints, ?_, ?_⟩
    · rw [random, randomIndex_eq draw hN, Option.some_bind, hcast]
      exact runTimed_eq_some sweep (2 ^ k) iters _ out ho
    · rw [randomPrefetchExec, randomPrefetchIndex_eq draw hN, Option.some_bind,
        vectorNew_pow hN, Option.some_bind, hcast, hh, ho]
      rfl

/-- C6 at `N = 2` on the index buffer `[1, 0]` and the output buffer `[0, 0]`,
the word `7` lying past the end of `v_in`, and for the benchmarks at `k = 4`
with two sweeps. -/
theorem hint_keeps_result_witness :
    (∃ out hints, sweep ((2 : Nat) : Int) [1, 0] [0, 0] = some out ∧
        plainLoop ((2 : Nat) : Int) ⟨[1, 0], [0, 0], []⟩ = some ⟨[1, 0], out, []⟩ ∧
        hintedLoop (fun _ => 7) ((2 : Nat) : Int) ⟨[1, 0], [0, 0], []⟩ =
          some ⟨[1, 0], out, hints⟩) ∧
      ∃ v_in out hints, random ShiftModel.mask (fun i => 7 * i + 3) 4 2 = some (v_in, out) ∧
        randomPrefetchExec (fun _ => 7) ShiftModel.mask (fun i => 7 * i + 3) 4 2 =
          some ⟨v_in, out, hints⟩ :=
  hint_keeps_result (fun _ => 7) 2 ⟨[1, 0], [0, 0], []⟩ rfl rfl (by decide)
    ShiftModel.mask (fun i => 7 * i + 3) 4 (sizeN_of_le _ (by decide)) 2

/-- C13. No statement of a timed loop modifies the index buffer or changes
the length of a buffer: the addition stores into `v_out` in place and the hint
stores nothing. So for every index buffer of length `N` with entries in
`[0, N)` and every output buffer of length `N`, any number of sweeps returns, in
the loop shared by `rowMajor`, `columnMajor` and `random` and in the loop of
`randomPrefetch` as it executes, with `v_in` equal to what it was before the
first sweep and `v_out` still of length `N`. -/
theorem timed_loops_frame (past : Int → Int) (N : Nat) (s : LoopState)
    (hl : s.v_in.length = N) (hlo : s.v_out.length = N)
    (hin : ∀ x ∈ s.v_in, 0 ≤ x ∧ x < (N : Int)) (iters : Nat) :
    (∀ (t t' : LoopState) (i : Int), addStmt t i = some t' →
        t'.v_in = t.v_in ∧ t'.v_out.length = t.v_out.length) ∧
      (∀ (t : LoopState) (i : Int),
        (hintStmt past t i).v_in = t.v_in ∧ (hintStmt past t i).v_out = t.v_out) ∧
      (∃ t, keepRunning (plainLoop (N : Int)) iters s = some t ∧
        t.v_in = s.v_in ∧ t.v_in.length = N ∧ t.v_out.length = N) ∧
      ∃ t, keepRunning (hintedLoop past (N : Int)) iters s = some t ∧
        t.v_in = s.v_in ∧ t.v_in.length = N ∧ t.v_out.length = N := by
  obtain ⟨out, ho, hlen⟩ := keepRunning_sweep_some N s.v_in s.v_out (by omega)
    (by rw [hlo]; exact hin) iters
  obtain ⟨hints, hh⟩ := keepRunning_hintedLoop past N iters s
  refine ⟨fun t t' i h => addStmt_frame t t' i h, fun t i => ⟨rfl, rfl⟩, ?_, ?_⟩
  · exact ⟨⟨s.v_in, out, s.hints⟩, by rw [keepRunning_plainLoop, ho]; rfl, rfl, hl,
      by rw [hlen, hlo]⟩
  · exact ⟨⟨s.v_in, out, hints⟩, by rw [hh, ho]; rfl, rfl, hl, by rw [hlen, hlo]⟩

/-- C13 at `N = 2` on the index buffer `[1, 0]`, the output buffer `[0, 0]`
and three sweeps, the word `7` lying past the end of `v_in`. -/
theorem timed_loops_frame_witness :
    (∀ (t t' : LoopState) (i : Int), addStmt t i = some t' →
        t'.v_in = t.v_in ∧ t'.v_out.length = t.v_out.length) ∧
      (∀ (t : LoopState) (i : Int),
        (hintStmt (fun _ => 7) t i).v_in = t.v_in ∧ (hintStmt (fun _ => 7) t i).v_out = t.v_out) ∧
      (∃ t, keepRunning (plainLoop ((2 : Nat) : Int)) 3 ⟨[1, 0], [0, 0], []⟩ = some t ∧
        t.v_in = [1, 0] ∧ t.v_in.length = 2 ∧ t.v_out.length = 2) ∧
      ∃ t, keepRunning (hintedLoop (fun _ => 7) ((2 : Nat) : Int)) 3 ⟨[1, 0], [0, 0], []⟩ =
          some t ∧
        t.v_in = [1, 0] ∧ t.v_in.length = 2 ∧ t.v_out.length = 2 :=
  timed_loops_frame (fun _ => 7) 2 ⟨[1, 0], [0, 0], []⟩ rfl rfl (by decide) 3

end Prefetching
